import Mathlib

/-!
The event store of postback-catcher (`main.go`)

A shallow embedding of `savePostback`, `getPostbacks`, `deletePostback`, of the
limit handling of `getHandler` and of the identifier produced by
`postbackHandler`, together with the library behaviour these functions rely on:

* Go strings and byte slices are lists of bytes (`Bytes`), a byte being a
  natural number below 256;
* the bbolt bucket is a list of key/value pairs kept in strictly ascending key
  order under `bytes.Compare`, with `Put`, `Delete` and the cursor walk
  `Last`/`Prev`;
* `encoding/json` for the `Postback` struct: `json.Marshal` (field order, the
  `omitempty` fields, string escaping with HTML escaping switched on) and
  `json.Unmarshal` (syntax check of the whole input, then decoding into the
  struct with case-insensitive field matching);
* `strconv.Atoi` and `strconv.FormatInt(·, 10)`.

Disk failures of the storage engine are outside the model.
-/

namespace PostbackCatcher

/-! ## Bytes -/

/-- A Go `string` or `[]byte`: a sequence of bytes (natural numbers below 256). -/
abbrev Bytes := List Nat

/-- The bytes of an ASCII string literal. -/
def str (s : String) : Bytes := s.toList.map Char.toNat

/-- Go `bytes.Compare`: lexicographic comparison of byte sequences. -/
def bytesCompare : Bytes → Bytes → Ordering
  | [], [] => Ordering.eq
  | [], _ :: _ => Ordering.lt
  | _ :: _, [] => Ordering.gt
  | a :: as, b :: bs =>
    if a < b then Ordering.lt
    else if b < a then Ordering.gt
    else bytesCompare as bs

/-- Strict byte-string order: `bytes.Compare a b < 0`. -/
def bytesLess (a b : Bytes) : Prop := bytesCompare a b = Ordering.lt

instance (a b : Bytes) : Decidable (bytesLess a b) := by
  unfold bytesLess; infer_instance

/-! ## UTF-8 (package `unicode/utf8`) and UTF-16 surrogates -/

/-- Go `utf8.RuneError`, U+FFFD. -/
def RuneError : Nat := 0xFFFD

/-- Whether `b` is a continuation byte `0x80..0xBF`. -/
def isCont (b : Nat) : Bool := 0x80 ≤ b && b ≤ 0xBF

/-- Go `utf8.DecodeRune`: the rune encoded at the head of the input and its
width in bytes. An invalid or truncated encoding gives `(RuneError, 1)`, empty
input `(RuneError, 0)`. The masks and shifts of the Go code are written with
`%` and `*`. -/
def decodeRune : Bytes → Nat × Nat
  | [] => (RuneError, 0)
  | b0 :: rest =>
    if b0 < 0x80 then (b0, 1)
    else if b0 < 0xC2 then (RuneError, 1)
    else if b0 < 0xE0 then
      match rest with
      | b1 :: _ =>
        if isCont b1 then ((b0 % 32) * 64 + b1 % 64, 2) else (RuneError, 1)
      | [] => (RuneError, 1)
    else if b0 < 0xF0 then
      match rest with
      | b1 :: b2 :: _ =>
        if (if b0 = 0xE0 then 0xA0 else 0x80) ≤ b1 && b1 ≤ (if b0 = 0xED then 0x9F else 0xBF)
            && isCont b2 then
          (((b0 % 16) * 64 + b1 % 64) * 64 + b2 % 64, 3)
        else (RuneError, 1)
      | _ => (RuneError, 1)
    else if b0 < 0xF5 then
      match rest with
      | b1 :: b2 :: b3 :: _ =>
        if (if b0 = 0xF0 then 0x90 else 0x80) ≤ b1 && b1 ≤ (if b0 = 0xF4 then 0x8F else 0xBF)
            && isCont b2 && isCont b3 then
          ((((b0 % 8) * 64 + b1 % 64) * 64 + b2 % 64) * 64 + b3 % 64, 4)
        else (RuneError, 1)
      | _ => (RuneError, 1)
    else (RuneError, 1)

/-- Go `utf8.EncodeRune` (as `utf8.AppendRune`): the UTF-8 bytes of a rune;
surrogates and values above U+10FFFF are written as U+FFFD. -/
def encodeRune (r : Nat) : Bytes :=
  if r ≤ 0x7F then [r]
  else if r ≤ 0x7FF then [0xC0 + r / 64, 0x80 + r % 64]
  else if 0x10FFFF < r || (0xD800 ≤ r && r ≤ 0xDFFF) then [0xEF, 0xBF, 0xBD]
  else if r ≤ 0xFFFF then [0xE0 + r / 4096, 0x80 + r / 64 % 64, 0x80 + r % 64]
  else [0xF0 + r / 262144, 0x80 + r / 4096 % 64, 0x80 + r / 64 % 64, 0x80 + r % 64]

/-- Go `utf8.ValidString`, with `fuel` bounding the number of runes read. -/
def validUTF8Aux : Nat → Bytes → Bool
  | 0, s => s.isEmpty
  | _ + 1, [] => true
  | fuel + 1, b :: rest =>
    let d := decodeRune (b :: rest)
    if d.1 = RuneError && d.2 = 1 then false
    else validUTF8Aux fuel (rest.drop (d.2 - 1))

/-- Go `utf8.ValidString`. -/
def validUTF8 (s : Bytes) : Bool := validUTF8Aux s.length s

/-- Go `utf16.IsSurrogate`. -/
def isSurrogate (r : Nat) : Bool := 0xD800 ≤ r && r < 0xE000

/-- Go `utf16.DecodeRune`: the code point of a surrogate pair, U+FFFD when the
pair is not valid. -/
def utf16DecodeRune (r1 r2 : Nat) : Nat :=
  if 0xD800 ≤ r1 && r1 < 0xDC00 && 0xDC00 ≤ r2 && r2 < 0xE000 then
    (r1 - 0xD800) * 1024 + (r2 - 0xDC00) + 0x10000
  else RuneError

/-! ## The record -/

/-- The `Postback` struct of `main.go`. `Args` is a Go map: `none` is the nil
map, `some kvs` a non-nil map listed in ascending key order. -/
structure Postback where
  Method : Bytes
  URL : Bytes
  ID : Bytes
  Args : Option (List (Bytes × Bytes))
  Body : Bytes
deriving DecidableEq, Repr

/-! ## `json.Marshal` of a `Postback` -/

/-- The digit table `hex` of `encoding/json`. -/
def hexDigit (n : Nat) : Nat := if n < 10 then 48 + n else 87 + n

/-- The table `htmlSafeSet` of `encoding/json`: the ASCII bytes written without
escaping, namely `0x20..0x7F` except the quote, the backslash, `<`, `>`, `&`. -/
def htmlSafe (b : Nat) : Bool :=
  0x20 ≤ b && b < 0x80 && b != 0x22 && b != 0x5C && b != 0x3C && b != 0x3E && b != 0x26

/-- The escape written by `appendString` for an ASCII byte outside `htmlSafeSet`. -/
def escapeASCII (b : Nat) : Bytes :=
  if b = 0x5C || b = 0x22 then [0x5C, b]
  else if b = 0x08 then [0x5C, 0x62]
  else if b = 0x0C then [0x5C, 0x66]
  else if b = 0x0A then [0x5C, 0x6E]
  else if b = 0x0D then [0x5C, 0x72]
  else if b = 0x09 then [0x5C, 0x74]
  else [0x5C, 0x75, 0x30, 0x30, hexDigit (b / 16), hexDigit (b % 16)]

/-- The loop of `appendString` (with `escapeHTML = true`) over the source
string, one rune per step; `fuel` bounds the number of steps. A byte that is
not valid UTF-8 is written as U+FFFD, the bytes `EF BF BD` (releases of
`encoding/json` before the one built on `encoding/json/v2` write the escape
`\ufffd` instead, which `json.Unmarshal` reads as the same three bytes). -/
def appendStringLoop : Nat → Bytes → Bytes
  | 0, _ => []
  | _ + 1, [] => []
  | fuel + 1, b :: rest =>
    if b < 0x80 then
      (if htmlSafe b then [b] else escapeASCII b) ++ appendStringLoop fuel rest
    else
      let d := decodeRune (b :: rest)
      if d.1 = RuneError && d.2 = 1 then
        [0xEF, 0xBF, 0xBD] ++ appendStringLoop fuel rest
      else if d.1 = 0x2028 || d.1 = 0x2029 then
        [0x5C, 0x75, 0x32, 0x30, 0x32, hexDigit (d.1 % 16)]
          ++ appendStringLoop fuel (rest.drop (d.2 - 1))
      else
        (b :: rest).take d.2 ++ appendStringLoop fuel (rest.drop (d.2 - 1))

/-- The function `appendString` of `encoding/json`: a quoted JSON string. -/
def appendString (s : Bytes) : Bytes :=
  0x22 :: appendStringLoop s.length s ++ [0x22]

/-- The members of an encoded map, separated by commas. -/
def marshalMembers : List (Bytes × Bytes) → Bytes
  | [] => []
  | [kv] => appendString kv.1 ++ 0x3A :: appendString kv.2
  | kv :: kv2 :: kvs =>
    appendString kv.1 ++ 0x3A :: appendString kv.2 ++ 0x2C :: marshalMembers (kv2 :: kvs)

/-- Go `json.Marshal(p)` for `p : *Postback`: the fields in declaration order,
`args` omitted when the map has no entry and `body` when it is empty. The
encoding of this struct has no failure case. -/
def jsonMarshal (p : Postback) : Bytes :=
  str "\x7b\"method\":" ++ appendString p.Method
    ++ str ",\"url\":" ++ appendString p.URL
    ++ str ",\"id\":" ++ appendString p.ID
    ++ (match p.Args with
        | some (kv :: kvs) => str ",\"args\":\x7b" ++ marshalMembers (kv :: kvs) ++ [0x7D]
        | _ => [])
    ++ (if p.Body = [] then [] else str ",\"body\":" ++ appendString p.Body)
    ++ [0x7D]

/-! ## `json.Unmarshal` into a `Postback`

`json.Unmarshal` first checks the whole input against the JSON grammar
(`checkValid`, the scanner) and then decodes it. Here one recursive-descent
reader does both: it accepts exactly the inputs of the scanner and returns the
value read, strings already unquoted as `unquoteBytes` does. -/

/-- A JSON value as read by the decoder. -/
inductive JValue where
  | null
  | bool (b : Bool)
  | number
  | string (s : Bytes)
  | array (xs : List JValue)
  | object (kvs : List (Bytes × JValue))

/-- The function `isSpace` of the scanner: space, tab, carriage return, newline. -/
def isSpace (c : Nat) : Bool := c = 0x20 || c = 0x09 || c = 0x0D || c = 0x0A

/-- Skip JSON whitespace. -/
def skipWS : Bytes → Bytes
  | [] => []
  | c :: rest => if isSpace c then skipWS rest else c :: rest

/-- The value of a hexadecimal digit, as in `getu4`. -/
def hexVal (c : Nat) : Option Nat :=
  if 0x30 ≤ c && c ≤ 0x39 then some (c - 0x30)
  else if 0x61 ≤ c && c ≤ 0x66 then some (c - 0x61 + 10)
  else if 0x41 ≤ c && c ≤ 0x46 then some (c - 0x41 + 10)
  else none

/-- Four hexadecimal digits at the head of the input: their value and the rest. -/
def hex4 : Bytes → Option (Nat × Bytes)
  | a :: b :: c :: d :: rest =>
    match hexVal a, hexVal b, hexVal c, hexVal d with
    | some x, some y, some z, some w => some (((x * 16 + y) * 16 + z) * 16 + w, rest)
    | _, _, _, _ => none
  | _ => none

/-- The function `getu4` of the decoder: the value of a `\uXXXX` escape at the
head of the input, and the rest. -/
def getu4 : Bytes → Option (Nat × Bytes)
  | c :: u :: rest => if c = 0x5C && u = 0x75 then hex4 rest else none
  | _ => none

/-- The byte denoted by a one-letter escape; `none` for any other letter. -/
def simpleEscape (e : Nat) : Option Nat :=
  if e = 0x22 || e = 0x5C || e = 0x2F then some e
  else if e = 0x62 then some 0x08
  else if e = 0x66 then some 0x0C
  else if e = 0x6E then some 0x0A
  else if e = 0x72 then some 0x0D
  else if e = 0x74 then some 0x09
  else none

/-- Put the bytes `w` in front of a string read so far. -/
def consBytes (w : Bytes) : Option (Bytes × Bytes) → Option (Bytes × Bytes)
  | some (s, rest) => some (w ++ s, rest)
  | none => none

/-- A JSON string after its opening quote: the unquoted contents (the slow path
of `unquoteBytes`, which coerces to well-formed UTF-8) and the input after the
closing quote. `none` when the scanner rejects the string. -/
def parseString : Nat → Bytes → Option (Bytes × Bytes)
  | 0, _ => none
  | _ + 1, [] => none
  | fuel + 1, c :: rest =>
    if c = 0x22 then some ([], rest)
    else if c = 0x5C then
      match rest with
      | [] => none
      | e :: rest1 =>
        if e = 0x75 then
          match hex4 rest1 with
          | none => none
          | some (rr, rest2) =>
            if isSurrogate rr then
              match getu4 rest2 with
              | some (rr1, rest3) =>
                if utf16DecodeRune rr rr1 ≠ RuneError then
                  consBytes (encodeRune (utf16DecodeRune rr rr1)) (parseString fuel rest3)
                else consBytes (encodeRune RuneError) (parseString fuel rest2)
              | none => consBytes (encodeRune RuneError) (parseString fuel rest2)
            else consBytes (encodeRune rr) (parseString fuel rest2)
        else
          match simpleEscape e with
          | none => none
          | some b => consBytes [b] (parseString fuel rest1)
    else if c < 0x20 then none
    else if c < 0x80 then consBytes [c] (parseString fuel rest)
    else
      let d := decodeRune (c :: rest)
      consBytes (encodeRune d.1) (parseString fuel (rest.drop (d.2 - 1)))

/-- Whether `c` is a decimal digit. -/
def isDigit (c : Nat) : Bool := 0x30 ≤ c && c ≤ 0x39

/-- Skip decimal digits. -/
def skipDigits : Bytes → Bytes
  | [] => []
  | c :: rest => if isDigit c then skipDigits rest else c :: rest

/-- The exponent part of a number (scanner states `stateE`, `stateESign`,
`stateE0`): the input after it. -/
def parseExponent : Bytes → Option Bytes
  | c :: rest =>
    if c = 0x65 || c = 0x45 then
      match (match rest with
             | s :: rest1 => if s = 0x2B || s = 0x2D then rest1 else s :: rest1
             | [] => []) with
      | d :: rest2 => if isDigit d then some (skipDigits rest2) else none
      | [] => none
    else some (c :: rest)
  | [] => some []

/-- The fraction part of a number (scanner states `stateDot`, `stateDot0`). -/
def parseFraction : Bytes → Option Bytes
  | c :: rest =>
    if c = 0x2E then
      match rest with
      | d :: rest1 => if isDigit d then some (skipDigits rest1) else none
      | [] => none
    else some (c :: rest)
  | [] => some []

/-- A JSON number (scanner states `stateNeg`, `state0`, `state1` and the
fraction and exponent): the input after it. -/
def parseNumber (bs : Bytes) : Option Bytes :=
  match (match bs with
         | c :: rest => if c = 0x2D then rest else c :: rest
         | [] => []) with
  | d :: rest =>
    if d = 0x30 then (parseFraction rest).bind parseExponent
    else if isDigit d then (parseFraction (skipDigits rest)).bind parseExponent
    else none
  | [] => none

/-- Strip the literal `lit` from the head of the input. -/
def stripLit : Bytes → Bytes → Option Bytes
  | [], bs => some bs
  | _ :: _, [] => none
  | l :: lit, b :: bs => if l = b then stripLit lit bs else none

/-- The constant `maxNestingDepth` of the scanner. -/
def maxNestingDepth : Nat := 10000

mutual
/-- Read one JSON value; `depth` is the number of arrays and objects open. -/
def parseValue : Nat → Nat → Bytes → Option (JValue × Bytes)
  | 0, _, _ => none
  | fuel + 1, depth, bs =>
    match skipWS bs with
    | [] => none
    | c :: rest =>
      if c = 0x7B then
        if maxNestingDepth < depth + 1 then none
        else
          match skipWS rest with
          | [] => none
          | c1 :: rest1 =>
            if c1 = 0x7D then some (JValue.object [], rest1)
            else
              match parseMembers fuel (depth + 1) (c1 :: rest1) with
              | some (kvs, rest2) => some (JValue.object kvs, rest2)
              | none => none
      else if c = 0x5B then
        if maxNestingDepth < depth + 1 then none
        else
          match skipWS rest with
          | [] => none
          | c1 :: rest1 =>
            if c1 = 0x5D then some (JValue.array [], rest1)
            else
              match parseElems fuel (depth + 1) (c1 :: rest1) with
              | some (xs, rest2) => some (JValue.array xs, rest2)
              | none => none
      else if c = 0x22 then
        match parseString rest.length rest with
        | some (s, rest1) => some (JValue.string s, rest1)
        | none => none
      else if c = 0x2D || isDigit c then
        match parseNumber (c :: rest) with
        | some rest1 => some (JValue.number, rest1)
        | none => none
      else if c = 0x74 then
        match stripLit (str "rue") rest with
        | some rest1 => some (JValue.bool true, rest1)
        | none => none
      else if c = 0x66 then
        match stripLit (str "alse") rest with
        | some rest1 => some (JValue.bool false, rest1)
        | none => none
      else if c = 0x6E then
        match stripLit (str "ull") rest with
        | some rest1 => some (JValue.null, rest1)
        | none => none
      else none
/-- Read the members of an object up to and including its closing brace. -/
def parseMembers : Nat → Nat → Bytes → Option (List (Bytes × JValue) × Bytes)
  | 0, _, _ => none
  | fuel + 1, depth, bs =>
    match skipWS bs with
    | [] => none
    | q :: rest =>
      if q = 0x22 then
        match parseString rest.length rest with
        | none => none
        | some (k, rest1) =>
          match skipWS rest1 with
          | [] => none
          | c :: rest2 =>
            if c = 0x3A then
              match parseValue fuel depth rest2 with
              | none => none
              | some (v, rest3) =>
                match skipWS rest3 with
                | [] => none
                | c1 :: rest4 =>
                  if c1 = 0x2C then
                    match parseMembers fuel depth rest4 with
                    | some (kvs, rest5) => some ((k, v) :: kvs, rest5)
                    | none => none
                  else if c1 = 0x7D then some ([(k, v)], rest4)
                  else none
            else none
      else none
/-- Read the elements of an array up to and including its closing bracket. -/
def parseElems : Nat → Nat → Bytes → Option (List JValue × Bytes)
  | 0, _, _ => none
  | fuel + 1, depth, bs =>
    match parseValue fuel depth bs with
    | none => none
    | some (v, rest) =>
      match skipWS rest with
      | [] => none
      | c :: rest1 =>
        if c = 0x2C then
          match parseElems fuel depth rest1 with
          | some (xs, rest2) => some (v :: xs, rest2)
          | none => none
        else if c = 0x5D then some ([v], rest1)
        else none
end

/-- The whole input as one JSON value (`checkValid` and the read of the value):
a value, then only whitespace. Each call of the reader consumes a byte before
it recurses, so `length + 1` steps are enough for every input. -/
def parseJSON (data : Bytes) : Option JValue :=
  match parseValue (data.length + 1) 0 data with
  | some (v, rest) => if skipWS rest = [] then some v else none
  | none => none

/-- The fields of `Postback`. -/
inductive Field where
  | method | url | id | args | body
deriving DecidableEq, Repr

/-- The function `foldName` of the decoder, as far as it can produce an ASCII
name: ASCII letters go to upper case, and the two non-ASCII runes whose simple
case folding is an ASCII letter, U+017F (long s) and U+212A (Kelvin sign), go
to `S` and `K`. -/
def foldName : Bytes → Bytes
  | [] => []
  | 0xC5 :: 0xBF :: rest => 0x53 :: foldName rest
  | 0xE2 :: 0x84 :: 0xAA :: rest => 0x4B :: foldName rest
  | c :: rest => (if 0x61 ≤ c && c ≤ 0x7A then c - 32 else c) :: foldName rest

/-- The struct field an object key is decoded into: the field of that exact
name, else the field of that name up to case folding, else none. -/
def fieldOf (key : Bytes) : Option Field :=
  if key = str "method" then some Field.method
  else if key = str "url" then some Field.url
  else if key = str "id" then some Field.id
  else if key = str "args" then some Field.args
  else if key = str "body" then some Field.body
  else if foldName key = str "METHOD" then some Field.method
  else if foldName key = str "URL" then some Field.url
  else if foldName key = str "ID" then some Field.id
  else if foldName key = str "ARGS" then some Field.args
  else if foldName key = str "BODY" then some Field.body
  else none

/-- Assignment `m[k] = v` on a Go map held in ascending key order. -/
def mapSet (k v : Bytes) : List (Bytes × Bytes) → List (Bytes × Bytes)
  | [] => [(k, v)]
  | (k1, v1) :: rest =>
    match bytesCompare k k1 with
    | Ordering.lt => (k, v) :: (k1, v1) :: rest
    | Ordering.eq => (k, v) :: rest
    | Ordering.gt => (k1, v1) :: mapSet k v rest

/-- Decode a JSON value into a string field: a string is stored, `null` leaves
the field as it is, anything else is an `UnmarshalTypeError`. -/
def decodeString (cur : Bytes) : JValue → Option Bytes
  | JValue.string s => some s
  | JValue.null => some cur
  | _ => none

/-- Decode the members of a JSON object into a `map[string]string`. -/
def decodeMapMembers (m : List (Bytes × Bytes)) : List (Bytes × JValue) → Option (List (Bytes × Bytes))
  | [] => some m
  | (k, v) :: kvs =>
    match decodeString [] v with
    | some s => decodeMapMembers (mapSet k s m) kvs
    | none => none

/-- Decode a JSON value into the `Args` field: an object fills the map (made
first if nil), `null` sets the nil map, anything else is an
`UnmarshalTypeError`. -/
def decodeArgs (cur : Option (List (Bytes × Bytes))) : JValue → Option (Option (List (Bytes × Bytes)))
  | JValue.object kvs => (decodeMapMembers (cur.getD []) kvs).map some
  | JValue.null => some none
  | _ => none

/-- Decode the members of the top-level object into the struct, in input order;
a key matching no field is skipped. A type error anywhere makes
`json.Unmarshal` return an error, here `none`. -/
def decodeFields (p : Postback) : List (Bytes × JValue) → Option Postback
  | [] => some p
  | (k, v) :: kvs =>
    match fieldOf k with
    | none => decodeFields p kvs
    | some Field.method =>
      (decodeString p.Method v).bind fun s => decodeFields { p with Method := s } kvs
    | some Field.url =>
      (decodeString p.URL v).bind fun s => decodeFields { p with URL := s } kvs
    | some Field.id =>
      (decodeString p.ID v).bind fun s => decodeFields { p with ID := s } kvs
    | some Field.args =>
      (decodeArgs p.Args v).bind fun a => decodeFields { p with Args := a } kvs
    | some Field.body =>
      (decodeString p.Body v).bind fun s => decodeFields { p with Body := s } kvs

/-- The zero value of `Postback` (`var p Postback`). -/
def Postback.zero : Postback := { Method := [], URL := [], ID := [], Args := none, Body := [] }

/-- Go `json.Unmarshal(v, &p)` with `p` the zero `Postback`: `some p` when it
returns no error, `none` when it returns one (a syntax error, or a value of the
wrong JSON type for the struct or one of its fields). -/
def jsonUnmarshal (data : Bytes) : Option Postback :=
  match parseJSON data with
  | some (JValue.object kvs) => decodeFields Postback.zero kvs
  | some JValue.null => some Postback.zero
  | _ => none

/-! ## The bbolt store -/

/-- The errors `Bucket.Put` returns for its arguments. -/
inductive BoltError where
  | ErrKeyRequired
  | ErrKeyTooLarge
  | ErrValueTooLarge
deriving DecidableEq, Repr

/-- A bbolt bucket: its key/value pairs in ascending key order, the order of the
B+tree under `bytes.Compare`. -/
abbrev Bucket := List (Bytes × Bytes)

/-- The database as this program uses it: the bucket `"postbacks"` of the root,
`none` while it has not been created. -/
abbrev DB := Option Bucket

/-- The constant `MaxKeySize` of bbolt. -/
def MaxKeySize : Nat := 32768

/-- The constant `MaxValueSize` of bbolt, `(1 << 31) - 2`. -/
def MaxValueSize : Nat := 2147483646

/-- The invariant of a bucket: keys strictly ascending under `bytes.Compare`
(so pairwise distinct). -/
def Bucket.WF (b : Bucket) : Prop := b.Pairwise fun x y => bytesLess x.1 y.1

/-- The invariant of the database. -/
def DB.WF : DB → Prop
  | none => True
  | some b => Bucket.WF b

/-- The value stored under a key. -/
def Bucket.lookup (k : Bytes) : Bucket → Option Bytes
  | [] => none
  | (k1, v1) :: rest => if k1 = k then some v1 else Bucket.lookup k rest

/-- bbolt `Bucket.Put`: rejects an empty key, a key longer than `MaxKeySize`
and a value longer than `MaxValueSize`; otherwise the value is stored under the
key, replacing the value the key had. -/
def Bucket.Put (key value : Bytes) (b : Bucket) : Except BoltError Bucket :=
  if key.length = 0 then Except.error BoltError.ErrKeyRequired
  else if MaxKeySize < key.length then Except.error BoltError.ErrKeyTooLarge
  else if MaxValueSize < value.length then Except.error BoltError.ErrValueTooLarge
  else Except.ok (mapSet key value b)

/-- The effect of bbolt `Bucket.Delete` on the pairs: seek the first key not
below `key` and remove it when it is `key`. -/
def removeKey (key : Bytes) : Bucket → Bucket
  | [] => []
  | (k1, v1) :: rest =>
    match bytesCompare key k1 with
    | Ordering.lt => (k1, v1) :: rest
    | Ordering.eq => rest
    | Ordering.gt => (k1, v1) :: removeKey key rest

/-- bbolt `Bucket.Delete` in a writable transaction: never an error for a
bucket that holds no nested bucket; an absent key is a no-op. -/
def Bucket.Delete (key : Bytes) (b : Bucket) : Except BoltError Bucket :=
  Except.ok (removeKey key b)

/-- bbolt `DB.Update`: run `fn` in a read-write transaction; commit its
result when it returns no error, roll back when it returns one. -/
def DB.Update (db : DB) (fn : DB → Except BoltError DB) : Option BoltError × DB :=
  match fn db with
  | Except.ok tx => (none, tx)
  | Except.error e => (some e, db)

/-- bbolt `Tx.CreateBucketIfNotExists([]byte(bucketName))`: the bucket, empty
when it is created now. -/
def createBucketIfNotExists (tx : DB) : Bucket := tx.getD []

/-- The entries a cursor yields with `Last()` and then `Prev()` until the key
is nil: the pairs of the bucket from the greatest key down. -/
def cursorWalk (b : Bucket) : List (Bytes × Bytes) := b.reverse

/-! ## `main.go` -/

/-- The constant `defaultLimit`. -/
def defaultLimit : Int := 10

/-- A Go slice `[]Postback`: `none` is the nil slice. -/
abbrev PostbackSlice := Option (List Postback)

/-- Go `len` of a slice. -/
def sliceLen : PostbackSlice → Nat
  | none => 0
  | some l => l.length

/-- Go `append(postbacks, p)`. -/
def sliceAppend : PostbackSlice → Postback → PostbackSlice
  | none, p => some [p]
  | some l, p => some (l ++ [p])

/-- The function `savePostback`: in one update transaction, create the bucket if
absent, encode the record and put it under its identifier. Returns the error
(if any) and the database after the call. -/
def savePostback (p : Postback) (db : DB) : Option BoltError × DB :=
  DB.Update db fun tx =>
    let bucket := createBucketIfNotExists tx
    let jsonData := jsonMarshal p
    match Bucket.Put p.ID jsonData bucket with
    | Except.ok b => Except.ok (some b)
    | Except.error e => Except.error e

/-- The `for` loop of `getPostbacks` over the entries the cursor yields: it
stops when the key is nil or `len(postbacks) < limit` fails; an entry that does
not decode is skipped (`continue`), a decoded one is appended. -/
def scanLoop (limit : Int) : List (Bytes × Bytes) → PostbackSlice → PostbackSlice
  | [], postbacks => postbacks
  | (_, v) :: prev, postbacks =>
    if (sliceLen postbacks : Int) < limit then
      match jsonUnmarshal v with
      | none => scanLoop limit prev postbacks
      | some p => scanLoop limit prev (sliceAppend postbacks p)
    else postbacks

/-- The function `getPostbacks`: the slice returned and the error returned. -/
def getPostbacks (limit : Int) (db : DB) : PostbackSlice × Option BoltError :=
  let postbacks : PostbackSlice :=
    match db with
    | none => none
    | some bucket => scanLoop limit (cursorWalk bucket) none
  if sliceLen postbacks = 0 then (some [], none) else (postbacks, none)

/-- The function `deletePostback`: in one update transaction, delete the key
from the bucket; nothing to do when the bucket is absent. -/
def deletePostback (id : Bytes) (db : DB) : Option BoltError × DB :=
  DB.Update db fun tx =>
    match tx with
    | none => Except.ok none
    | some bucket =>
      match Bucket.Delete id bucket with
      | Except.ok b => Except.ok (some b)
      | Except.error e => Except.error e

/-- Decimal digits of the input (`ParseUint` in base 10): the number they
denote added to `10^length * acc`, `none` when a byte is not a digit. -/
def parseDigits : Bytes → Nat → Option Nat
  | [], acc => some acc
  | c :: rest, acc => if isDigit c then parseDigits rest (acc * 10 + (c - 0x30)) else none

/-- Go `strconv.Atoi` on a 64-bit platform: an optional sign and at least one
decimal digit, the value within the range of `int`; `none` when it returns an
error (syntax or range). -/
def atoi (s : Bytes) : Option Int :=
  match s with
  | [] => none
  | c :: rest =>
    match (if c = 0x2D || c = 0x2B then rest else c :: rest) with
    | [] => none
    | d :: ds =>
      match parseDigits (d :: ds) 0 with
      | none => none
      | some un =>
        if c = 0x2D then
          if 2 ^ 63 < un then none else some (-(un : Int))
        else
          if 2 ^ 63 ≤ un then none else some (un : Int)

/-- Go `url.Values.Get`: the first value of the parameter, the empty string
when the parameter is missing. -/
def queryGet (param : Option Bytes) : Bytes := param.getD []

/-- The limit `getHandler` passes to `getPostbacks`, from the `limit` query
parameter (`none` when the request has none). -/
def getHandlerLimit (param : Option Bytes) : Int :=
  let limitStr := queryGet param
  match atoi limitStr with
  | none => defaultLimit
  | some limit => limit

/-- The function `getHandler`: the status and the records of the response. -/
def getHandler (param : Option Bytes) (db : DB) : Nat × List Postback :=
  match getPostbacks (getHandlerLimit param) db with
  | (_, some _) => (500, [])
  | (postbacks, none) => (200, postbacks.getD [])

/-- The decimal digits of `n`, most significant first (`formatBits` in base
10); `fuel` bounds the number of digits. -/
def formatBits : Nat → Nat → Bytes
  | 0, _ => []
  | fuel + 1, n => if n < 10 then [0x30 + n] else formatBits fuel (n / 10) ++ [0x30 + n % 10]

/-- Go `strconv.FormatInt(t, 10)`. -/
def formatInt (t : Int) : Bytes :=
  if t < 0 then 0x2D :: formatBits (t.natAbs + 1) t.natAbs else formatBits (t.natAbs + 1) t.natAbs

/-- The identifier `postbackHandler` gives the record captured at `t`
nanoseconds since the epoch (`time.Now().UnixNano()`). -/
def identifier (t : Int) : Bytes := formatInt t

/-! ## Notions used in the statements -/

/-- The key/value pairs the database holds. -/
def DB.entries : DB → List (Bytes × Bytes)
  | none => []
  | some b => b

/-- The value the database holds under a key. -/
def DB.lookup (k : Bytes) (db : DB) : Option Bytes := Bucket.lookup k (DB.entries db)

/-- The stored entries that decode, each with its key, from the greatest key
down: the full descending listing. -/
def keyedListing (db : DB) : List (Bytes × Postback) :=
  (cursorWalk (DB.entries db)).filterMap fun e => (jsonUnmarshal e.2).map fun p => (e.1, p)

/-- The records of the full descending listing. -/
def fullListing (db : DB) : List Postback := (keyedListing db).map Prod.snd

/-- The database after saving the records of a list one after the other. -/
def saveAll (rs : List Postback) (db : DB) : DB :=
  rs.foldl (fun d p => (savePostback p d).2) db

/-- The record as it is read back from the store: `json.Unmarshal` of the bytes
`json.Marshal` wrote for it; `none` when `json.Unmarshal` returns an error. -/
def readBack (p : Postback) : Option Postback := jsonUnmarshal (jsonMarshal p)

/-- A decodable record: `json.Unmarshal` returns no error on its encoding. -/
def Decodable (p : Postback) : Prop := (readBack p).isSome = true

instance (p : Postback) : Decidable (Decodable p) := by
  unfold Decodable; infer_instance

instance (b : Bucket) : Decidable (Bucket.WF b) := by
  unfold Bucket.WF; infer_instance

instance (db : DB) : Decidable (DB.WF db) := by
  cases db with
  | none => exact isTrue trivial
  | some b => exact (inferInstance : Decidable (Bucket.WF b))

/-- A captured `POST /hook` request with the given identifier and body, the
record of the end-to-end scenarios. -/
def record (id body : String) : Postback :=
  { Method := str "POST", URL := str "/hook", ID := str id, Args := none, Body := str body }

/-- The store after capturing `"1000"`, `"1001"`, `"1002"` with bodies `"a"`,
`"b"`, `"c"`, starting from a database without the bucket. -/
def scenarioDB : DB :=
  saveAll [record "1000" "a", record "1001" "b", record "1002" "c"] none

/-- The error of each save, in order, when the records of a list are saved one
after the other. -/
def saveAllResults : List Postback → DB → List (Option BoltError)
  | [], _ => []
  | p :: ps, db => (savePostback p db).1 :: saveAllResults ps (savePostback p db).2

/-- The sizes `Bucket.Put` accepts for a record: the identifier has at least
one byte and at most `MaxKeySize`, the encoding at most `MaxValueSize`. -/
def Storable (p : Postback) : Prop :=
  p.ID ≠ [] ∧ p.ID.length ≤ MaxKeySize ∧ (jsonMarshal p).length ≤ MaxValueSize

instance (p : Postback) : Decidable (Storable p) := by
  unfold Storable; infer_instance

/-- The key/value pair `savePostback` writes for a record. -/
def entryOf (p : Postback) : Bytes × Bytes := (p.ID, jsonMarshal p)

/-- The pairs of a bucket after putting the entries of the records of a list
one after the other. -/
def putAll (rs : List Postback) (b : Bucket) : Bucket :=
  rs.foldl (fun acc p => mapSet p.ID (jsonMarshal p) acc) b

/-- A record whose identifier is one byte longer than `MaxKeySize`. -/
def longKeyRecord : Postback :=
  { Method := str "POST", URL := str "/hook", ID := List.replicate (MaxKeySize + 1) 0x31,
    Args := none, Body := str "a" }

/-- Every string of the record is valid UTF-8: the four string fields and the
keys and values of `Args`. -/
def ValidStrings (p : Postback) : Prop :=
  validUTF8 p.Method = true ∧ validUTF8 p.URL = true ∧ validUTF8 p.ID = true ∧
  validUTF8 p.Body = true ∧
  ∀ kv ∈ p.Args.getD [], validUTF8 kv.1 = true ∧ validUTF8 kv.2 = true

instance (p : Postback) : Decidable (ValidStrings p) := by
  unfold ValidStrings; infer_instance

/-- The `Args` map is listed in strictly ascending key order, as the
representation of a Go map requires (keys pairwise distinct). -/
def ArgsWF (p : Postback) : Prop := Bucket.WF (p.Args.getD [])

instance (p : Postback) : Decidable (ArgsWF p) := by
  unfold ArgsWF; infer_instance

/-- The record with an empty, non-nil `Args` map replaced by the nil map; every
other field, and a map with entries, is kept. -/
def emptyArgsAsNil (p : Postback) : Postback :=
  { p with Args := match p.Args with
                   | some (kv :: kvs) => some (kv :: kvs)
                   | _ => none }

/-- The member `json.Marshal` writes for `Args`, as the decoder reads it back:
none for a map without entries. -/
def argsMember (args : Option (List (Bytes × Bytes))) : List (Bytes × JValue) :=
  match args with
  | some (kv :: kvs) =>
    [(str "args", JValue.object ((kv :: kvs).map fun kv => (kv.1, JValue.string kv.2)))]
  | _ => []

/-- The member `json.Marshal` writes for `Body`: none for the empty string. -/
def bodyMember (body : Bytes) : List (Bytes × JValue) :=
  if body = [] then [] else [(str "body", JValue.string body)]

/-- The members of the JSON object `json.Marshal` writes for a record. -/
def membersOf (p : Postback) : List (Bytes × JValue) :=
  (str "method", JValue.string p.Method) :: (str "url", JValue.string p.URL) ::
    (str "id", JValue.string p.ID) :: (argsMember p.Args ++ bodyMember p.Body)

/-- A record whose body is the single byte `0xFF`, which is not valid UTF-8. -/
def rawBodyRecord : Postback :=
  { Method := str "POST", URL := str "/hook", ID := str "1000", Args := none, Body := [0xFF] }

/-- The record `postbackHandler` builds for `POST /hook` without a query string:
`Args` is the empty map made by `make`. -/
def noQueryRecord (id body : String) : Postback :=
  { Method := str "POST", URL := str "/hook", ID := str id, Args := some [], Body := str body }

/-- A store whose key `"0999"` holds the encoding of the record `"1000"`. -/
def staleDB : DB := some [(str "0999", jsonMarshal (record "1000" "a"))]

/-- A record whose identifier is the single byte `0xFF`, not valid UTF-8. -/
def rawIdRecord : Postback :=
  { Method := str "POST", URL := str "/hook", ID := [0xFF], Args := none, Body := str "a" }

/-- A record whose identifier is U+FFFD, the bytes `EF BF BD`. -/
def replacementIdRecord : Postback :=
  { Method := str "POST", URL := str "/hook", ID := [0xEF, 0xBF, 0xBD], Args := none,
    Body := str "a" }

/-! ## The byte-string order -/

theorem bytesCompare_self (a : Bytes) : bytesCompare a a = Ordering.eq := by
  induction a with
  | nil => rfl
  | cons x xs ih => simp [bytesCompare, ih]

theorem bytesCompare_eq_iff (a b : Bytes) : bytesCompare a b = Ordering.eq ↔ a = b := by
  induction a generalizing b with
  | nil => cases b <;> simp [bytesCompare]
  | cons x xs ih =>
    cases b with
    | nil => simp [bytesCompare]
    | cons y ys =>
      simp only [bytesCompare]
      split_ifs with h1 h2
      · simp; omega
      · simp; omega
      · rw [ih]; simp; omega

theorem bytesCompare_gt_iff (a b : Bytes) :
    bytesCompare a b = Ordering.gt ↔ bytesCompare b a = Ordering.lt := by
  induction a generalizing b with
  | nil => cases b <;> simp [bytesCompare]
  | cons x xs ih =>
    cases b with
    | nil => simp [bytesCompare]
    | cons y ys =>
      simp only [bytesCompare]
      split_ifs <;> first | omega | simp | exact ih ys

theorem bytesLess_irrefl (a : Bytes) : ¬ bytesLess a a := by
  simp [bytesLess, bytesCompare_self]

theorem bytesLess_trans {a b c : Bytes} (h1 : bytesLess a b) (h2 : bytesLess b c) :
    bytesLess a c := by
  unfold bytesLess at *
  induction a generalizing b c with
  | nil =>
    cases c with
    | nil => cases b <;> simp [bytesCompare] at h1 h2
    | cons z zs => simp [bytesCompare]
  | cons x xs ih =>
    cases b with
    | nil => simp [bytesCompare] at h1
    | cons y ys =>
      cases c with
      | nil => simp [bytesCompare] at h2
      | cons z zs =>
        simp only [bytesCompare] at h1 h2 ⊢
        split_ifs at h1 h2 ⊢ <;> first | rfl | omega | exact ih h1 h2

theorem bytesLess_asymm {a b : Bytes} (h1 : bytesLess a b) : ¬ bytesLess b a :=
  fun h2 => bytesLess_irrefl a (bytesLess_trans h1 h2)

theorem bytesLess_ne {a b : Bytes} (h : bytesLess a b) : a ≠ b := by
  intro e; subst e; exact bytesLess_irrefl a h

/-! ## Buckets -/

theorem removeKey_of_absent (id : Bytes) (b : Bucket) (h : ∀ e ∈ b, e.1 ≠ id) :
    removeKey id b = b := by
  induction b with
  | nil => rfl
  | cons e rest ih =>
    obtain ⟨k1, v1⟩ := e
    have hk : k1 ≠ id := h (k1, v1) (List.mem_cons_self _ _)
    have hne : bytesCompare id k1 ≠ Ordering.eq := by
      rw [Ne, bytesCompare_eq_iff]; exact fun e => hk e.symm
    simp only [removeKey]
    cases hc : bytesCompare id k1 with
    | lt => rfl
    | eq => exact absurd hc hne
    | gt =>
      simp only
      rw [ih fun e he => h e (List.mem_cons_of_mem _ he)]

theorem removeKey_eq_filter (id : Bytes) (b : Bucket) (hwf : Bucket.WF b) :
    removeKey id b = b.filter fun e => decide (e.1 ≠ id) := by
  induction b with
  | nil => rfl
  | cons e rest ih =>
    obtain ⟨k1, v1⟩ := e
    have hp := List.pairwise_cons.1 hwf
    simp only [removeKey]
    cases hc : bytesCompare id k1 with
    | lt =>
      simp only
      symm
      rw [List.filter_eq_self]
      intro e he
      simp only [decide_eq_true_eq]
      rcases List.mem_cons.1 he with rfl | he
      · exact (bytesLess_ne hc).symm
      · exact (bytesLess_ne (bytesLess_trans hc (hp.1 e he))).symm
    | eq =>
      have hid : id = k1 := (bytesCompare_eq_iff _ _).1 hc
      subst hid
      simp only [List.filter_cons, ne_eq, not_true_eq_false, decide_False, Bool.false_eq_true,
        if_false]
      symm
      rw [List.filter_eq_self]
      intro e he
      simp only [decide_eq_true_eq]
      exact (bytesLess_ne (hp.1 e he)).symm
    | gt =>
      have hlt : bytesLess k1 id := (bytesCompare_gt_iff _ _).1 hc
      have hne : k1 ≠ id := bytesLess_ne hlt
      simp only [List.filter_cons, ne_eq, hne, not_false_eq_true, decide_True, if_true]
      rw [ih hp.2]

theorem removeKey_WF (id : Bytes) (b : Bucket) (hwf : Bucket.WF b) :
    Bucket.WF (removeKey id b) := by
  rw [removeKey_eq_filter id b hwf]
  exact List.Pairwise.filter _ hwf

theorem removeKey_absent_after (id : Bytes) (b : Bucket) (hwf : Bucket.WF b) :
    ∀ e ∈ removeKey id b, e.1 ≠ id := by
  rw [removeKey_eq_filter id b hwf]
  intro e he
  simpa using (List.mem_filter.1 he).2

theorem deletePostback_some (id : Bytes) (b : Bucket) :
    deletePostback id (some b) = (none, some (removeKey id b)) := rfl

theorem deletePostback_none (id : Bytes) : deletePostback id none = (none, none) := rfl

/-! ## The scan of `getPostbacks` -/

theorem scanLoop_getD (limit : Int) (l : List (Bytes × Bytes)) (s : PostbackSlice) :
    (scanLoop limit l s).getD [] =
      s.getD [] ++ (l.filterMap fun e => jsonUnmarshal e.2).take (limit.toNat - sliceLen s) := by
  induction l generalizing s with
  | nil => simp [scanLoop]
  | cons e prev ih =>
    obtain ⟨k, v⟩ := e
    simp only [scanLoop]
    split_ifs with hlt
    · have hpos : 0 < limit.toNat - sliceLen s := by omega
      cases hv : jsonUnmarshal v with
      | none =>
        simp only [List.filterMap_cons, hv]
        exact ih s
      | some p =>
        simp only [List.filterMap_cons, hv]
        rw [ih]
        obtain ⟨n, hn⟩ : ∃ n, limit.toNat - sliceLen s = n + 1 := ⟨_, (Nat.succ_pred_eq_of_pos hpos).symm⟩
        have hlen : sliceLen (sliceAppend s p) = sliceLen s + 1 := by
          cases s <;> simp [sliceAppend, sliceLen]
        have hget : (sliceAppend s p).getD [] = s.getD [] ++ [p] := by
          cases s <;> simp [sliceAppend]
        rw [hlen, hget, hn, List.take_succ_cons]
        have : limit.toNat - (sliceLen s + 1) = n := by omega
        rw [this]
        simp
    · have h0 : limit.toNat - sliceLen s = 0 := by omega
      simp [h0]

theorem slice_fix (s : PostbackSlice) :
    (if sliceLen s = 0 then ((some [] : PostbackSlice), (none : Option BoltError)) else (s, none))
      = (some (s.getD []), none) := by
  cases s with
  | none => simp [sliceLen]
  | some l =>
    cases l with
    | nil => simp [sliceLen]
    | cons x xs => simp [sliceLen]

theorem fullListing_eq (db : DB) :
    fullListing db = (cursorWalk (DB.entries db)).filterMap fun e => jsonUnmarshal e.2 := by
  unfold fullListing keyedListing
  rw [List.map_filterMap]
  congr 1
  funext e
  cases jsonUnmarshal e.2 <;> rfl

theorem getPostbacks_eq (limit : Int) (db : DB) :
    getPostbacks limit db = (some ((fullListing db).take limit.toNat), none) := by
  unfold getPostbacks
  simp only []
  rw [slice_fix, fullListing_eq]
  cases db with
  | none => simp [DB.entries, cursorWalk]
  | some b =>
    simp only [DB.entries]
    rw [scanLoop_getD]
    simp [sliceLen]

/-! ## `Put` on the ordered pairs -/

theorem mem_mapSet {k v : Bytes} {b : List (Bytes × Bytes)} {e : Bytes × Bytes}
    (h : e ∈ mapSet k v b) : e = (k, v) ∨ e ∈ b := by
  induction b with
  | nil => simpa [mapSet] using h
  | cons x rest ih =>
    obtain ⟨k1, v1⟩ := x
    simp only [mapSet] at h
    cases hc : bytesCompare k k1 with
    | lt =>
      rw [hc] at h
      simpa using h
    | eq =>
      rw [hc] at h
      rcases List.mem_cons.1 h with h | h
      · exact Or.inl h
      · exact Or.inr (List.mem_cons_of_mem _ h)
    | gt =>
      rw [hc] at h
      rcases List.mem_cons.1 h with h | h
      · exact Or.inr (h ▸ List.mem_cons_self _ _)
      · rcases ih h with h | h
        · exact Or.inl h
        · exact Or.inr (List.mem_cons_of_mem _ h)

theorem mapSet_WF (k v : Bytes) (b : Bucket) (hwf : Bucket.WF b) :
    Bucket.WF (mapSet k v b) := by
  induction b with
  | nil => simp [mapSet, Bucket.WF]
  | cons x rest ih =>
    obtain ⟨k1, v1⟩ := x
    have hp := List.pairwise_cons.1 hwf
    simp only [mapSet]
    cases hc : bytesCompare k k1 with
    | lt =>
      refine List.pairwise_cons.2 ⟨?_, hwf⟩
      intro e he
      rcases List.mem_cons.1 he with rfl | he
      · exact hc
      · exact bytesLess_trans hc (hp.1 e he)
    | eq =>
      have hk : k = k1 := (bytesCompare_eq_iff _ _).1 hc
      subst hk
      exact List.pairwise_cons.2 ⟨fun e he => hp.1 e he, hp.2⟩
    | gt =>
      have hlt : bytesLess k1 k := (bytesCompare_gt_iff _ _).1 hc
      refine List.pairwise_cons.2 ⟨?_, ih hp.2⟩
      intro e he
      rcases mem_mapSet he with rfl | he
      · exact hlt
      · exact hp.1 e he

theorem mapSet_mapSet (k v1 v2 : Bytes) (b : List (Bytes × Bytes)) :
    mapSet k v2 (mapSet k v1 b) = mapSet k v2 b := by
  induction b with
  | nil => simp [mapSet, bytesCompare_self]
  | cons x rest ih =>
    obtain ⟨k1, w1⟩ := x
    simp only [mapSet]
    cases hc : bytesCompare k k1 with
    | lt => simp [mapSet, bytesCompare_self]
    | eq => simp [mapSet, bytesCompare_self]
    | gt => simp [mapSet, hc, ih]

theorem mapSet_append (k v : Bytes) (b : List (Bytes × Bytes))
    (h : ∀ e ∈ b, bytesLess e.1 k) : mapSet k v b = b ++ [(k, v)] := by
  induction b with
  | nil => rfl
  | cons x rest ih =>
    obtain ⟨k1, v1⟩ := x
    have h1 : bytesLess k1 k := h (k1, v1) (List.mem_cons_self _ _)
    have hc : bytesCompare k k1 = Ordering.gt := (bytesCompare_gt_iff _ _).2 h1
    simp only [mapSet, hc, List.cons_append]
    rw [ih fun e he => h e (List.mem_cons_of_mem _ he)]

theorem mapSet_perm (k v : Bytes) (b : Bucket) (hwf : Bucket.WF b) :
    List.Perm (mapSet k v b) ((k, v) :: b.filter fun e => decide (e.1 ≠ k)) := by
  induction b with
  | nil => simp [mapSet]
  | cons x rest ih =>
    obtain ⟨k1, v1⟩ := x
    have hp := List.pairwise_cons.1 hwf
    have hrm := removeKey_eq_filter k ((k1, v1) :: rest) hwf
    simp only [mapSet]
    simp only [removeKey] at hrm
    cases hc : bytesCompare k k1 with
    | lt =>
      rw [hc] at hrm
      simp only at hrm
      rw [← hrm]
    | eq =>
      rw [hc] at hrm
      simp only at hrm
      rw [← hrm]
    | gt =>
      rw [hc] at hrm
      simp only at hrm
      rw [← hrm, removeKey_eq_filter k rest hp.2]
      exact ((ih hp.2).cons (k1, v1)).trans (List.Perm.swap _ _ _)

theorem length_mapSet_le (k v : Bytes) (b : List (Bytes × Bytes)) :
    (mapSet k v b).length ≤ b.length + 1 := by
  induction b with
  | nil => simp [mapSet]
  | cons x rest ih =>
    obtain ⟨k1, v1⟩ := x
    simp only [mapSet]
    cases bytesCompare k k1 <;> simp; omega

theorem lookup_eq_none_iff (k : Bytes) (b : Bucket) :
    Bucket.lookup k b = none ↔ ∀ e ∈ b, e.1 ≠ k := by
  induction b with
  | nil => simp [Bucket.lookup]
  | cons x rest ih =>
    obtain ⟨k1, v1⟩ := x
    simp only [Bucket.lookup]
    split_ifs with h
    · simp [h]
    · simp [ih, h]

theorem lookup_filter_ne (id k : Bytes) (b : Bucket) (h : k ≠ id) :
    Bucket.lookup k (b.filter fun e => decide (e.1 ≠ id)) = Bucket.lookup k b := by
  induction b with
  | nil => rfl
  | cons x rest ih =>
    obtain ⟨k1, v1⟩ := x
    by_cases h1 : k1 = id
    · have hk : k1 ≠ k := fun e => h (e ▸ h1)
      rw [List.filter_cons_of_neg (by simpa using h1), ih]
      simp only [Bucket.lookup, if_neg hk]
    · rw [List.filter_cons_of_pos (by simpa using h1)]
      simp only [Bucket.lookup, ih]

/-! ## Saving -/

theorem savePostback_ok (p : Postback) (db : DB) (h : Storable p) :
    savePostback p db = (none, some (mapSet p.ID (jsonMarshal p) (DB.entries db))) := by
  obtain ⟨h1, h2, h3⟩ := h
  have h1' : p.ID.length ≠ 0 := by
    intro h0; exact h1 (List.length_eq_zero.1 h0)
  have h2' : ¬ MaxKeySize < p.ID.length := by omega
  have h3' : ¬ MaxValueSize < (jsonMarshal p).length := by omega
  cases db <;>
    simp only [savePostback, DB.Update, createBucketIfNotExists, Bucket.Put, h1', h2', h3',
      if_false, Option.getD, DB.entries]

theorem longKeyRecord_length : longKeyRecord.ID.length = MaxKeySize + 1 :=
  List.length_replicate _ _

theorem savePostback_keyTooLarge (p : Postback) (db : DB) (h : MaxKeySize < p.ID.length) :
    savePostback p db = (some BoltError.ErrKeyTooLarge, db) := by
  have h1 : ¬ p.ID.length = 0 := by omega
  simp only [savePostback, DB.Update, Bucket.Put, if_neg h1, if_pos h]

theorem longKeyRecord_tooLarge : MaxKeySize < longKeyRecord.ID.length := by
  rw [longKeyRecord_length]; omega

theorem lookup_mapSet (k v : Bytes) (b : List (Bytes × Bytes)) :
    Bucket.lookup k (mapSet k v b) = some v := by
  induction b with
  | nil => simp [mapSet, Bucket.lookup]
  | cons x rest ih =>
    obtain ⟨k1, v1⟩ := x
    simp only [mapSet]
    cases hc : bytesCompare k k1 with
    | lt => simp [Bucket.lookup]
    | eq => simp [Bucket.lookup]
    | gt =>
      have hne : k1 ≠ k := bytesLess_ne ((bytesCompare_gt_iff _ _).1 hc)
      simp only [Bucket.lookup, if_neg hne, ih]

theorem count_key_mapSet (k v : Bytes) (b : Bucket) (hwf : Bucket.WF b) :
    ((mapSet k v b).filter fun e => decide (e.1 = k)) = [(k, v)] := by
  have hp := (mapSet_perm k v b hwf).filter fun e => decide (e.1 = k)
  have hnil : ((b.filter fun e => decide (e.1 ≠ k)).filter fun e => decide (e.1 = k)) = [] := by
    rw [List.filter_eq_nil_iff]
    intro e he
    have := (List.mem_filter.1 he).2
    simpa using this
  rw [List.filter_cons_of_pos (by simp), hnil] at hp
  exact List.perm_singleton.1 hp

/-! ## Saving a list of records -/

theorem saveAll_cons (p : Postback) (ps : List Postback) (db : DB) :
    saveAll (p :: ps) db = saveAll ps (savePostback p db).2 := rfl

theorem entries_WF (db : DB) (hwf : DB.WF db) : Bucket.WF (DB.entries db) := by
  cases db with
  | none => exact List.Pairwise.nil
  | some b => exact hwf

theorem saveAll_eq_putAll (rs : List Postback) (db : DB) (hst : ∀ p ∈ rs, Storable p) :
    DB.entries (saveAll rs db) = putAll rs (DB.entries db) ∧
    (rs ≠ [] → saveAll rs db = some (putAll rs (DB.entries db))) ∧
    ∀ e ∈ saveAllResults rs db, e = none := by
  induction rs generalizing db with
  | nil => exact ⟨rfl, fun h => absurd rfl h, fun e he => by simp [saveAllResults] at he⟩
  | cons p ps ih =>
    have hp : Storable p := hst p (List.mem_cons_self _ _)
    have hps : ∀ q ∈ ps, Storable q := fun q hq => hst q (List.mem_cons_of_mem _ hq)
    have hs := savePostback_ok p db hp
    obtain ⟨ih1, ih2, ih3⟩ := ih (savePostback p db).2 hps
    rw [saveAll_cons]
    simp only [hs, DB.entries] at ih1 ih2 ih3
    refine ⟨?_, ?_, ?_⟩
    · rw [hs]; exact ih1
    · intro _
      rw [hs]
      cases ps with
      | nil => rfl
      | cons q qs => exact ih2 (List.cons_ne_nil _ _)
    · intro e he
      simp only [saveAllResults, hs, List.mem_cons] at he
      rcases he with he | he
      · exact he
      · exact ih3 e he

theorem putAll_increasing (rs : List Postback) (b : Bucket)
    (hinc : rs.Pairwise fun p q => bytesLess p.ID q.ID)
    (hb : ∀ e ∈ b, ∀ p ∈ rs, bytesLess e.1 p.ID) :
    putAll rs b = b ++ rs.map entryOf := by
  induction rs generalizing b with
  | nil => simp [putAll]
  | cons p ps ih =>
    have hp := List.pairwise_cons.1 hinc
    have happ : mapSet p.ID (jsonMarshal p) b = b ++ [(p.ID, jsonMarshal p)] :=
      mapSet_append _ _ _ fun e he => hb e he p (List.mem_cons_self _ _)
    show putAll ps (mapSet p.ID (jsonMarshal p) b) = _
    rw [happ, ih _ hp.2]
    · simp [entryOf]
    · intro e he q hq
      rcases List.mem_append.1 he with he | he
      · exact hb e he q (List.mem_cons_of_mem _ hq)
      · simp only [List.mem_singleton] at he
        subst he
        exact hp.1 q hq

theorem filterMap_entryOf (rs : List Postback) :
    (rs.map entryOf).filterMap (fun e => jsonUnmarshal e.2) = rs.filterMap readBack := by
  rw [List.filterMap_map]
  rfl

theorem decodable_iff (p : Postback) : Decodable p ↔ ∃ q, readBack p = some q := by
  unfold Decodable
  exact Option.isSome_iff_exists

theorem filterMap_readBack_some (l : List Postback) (hdec : ∀ p ∈ l, Decodable p) :
    (l.filterMap readBack).map some = l.map readBack := by
  induction l with
  | nil => rfl
  | cons p ps ih =>
    obtain ⟨q, hq⟩ := (decodable_iff p).1 (hdec p (List.mem_cons_self _ _))
    rw [List.filterMap_cons_some hq, List.map_cons, List.map_cons, hq,
      ih fun x hx => hdec x (List.mem_cons_of_mem _ hx)]

theorem filterMap_readBack_eq (l : List Postback) (g : Postback → Postback)
    (h : ∀ p ∈ l, readBack p = some (g p)) : l.filterMap readBack = l.map g := by
  induction l with
  | nil => rfl
  | cons p ps ih =>
    rw [List.filterMap_cons_some (h p (List.mem_cons_self _ _)), List.map_cons,
      ih fun x hx => h x (List.mem_cons_of_mem _ hx)]

theorem WF_eq_of_perm {a b : Bucket} (ha : Bucket.WF a) (hb : Bucket.WF b) (h : List.Perm a b) :
    a = b := by
  haveI : IsAntisymm (Bytes × Bytes) (fun x y => bytesLess x.1 y.1) :=
    ⟨fun _ _ h1 h2 => absurd h2 (bytesLess_asymm h1)⟩
  exact List.eq_of_perm_of_sorted h ha hb

theorem putAll_perm (rs : List Postback) (b : Bucket) (hwf : Bucket.WF b)
    (hnd : (rs.map fun p => p.ID).Nodup) :
    Bucket.WF (putAll rs b) ∧
    List.Perm (putAll rs b)
      (rs.map entryOf ++ b.filter fun e => decide (e.1 ∉ rs.map fun p => p.ID)) := by
  induction rs generalizing b with
  | nil =>
    refine ⟨hwf, ?_⟩
    simp [putAll]
  | cons p ps ih =>
    have hnd' := List.nodup_cons.1 hnd
    have hwf' := mapSet_WF p.ID (jsonMarshal p) b hwf
    obtain ⟨ih1, ih2⟩ := ih (mapSet p.ID (jsonMarshal p) b) hwf' hnd'.2
    refine ⟨ih1, ?_⟩
    show List.Perm (putAll ps (mapSet p.ID (jsonMarshal p) b)) _
    refine ih2.trans ?_
    have hf := (mapSet_perm p.ID (jsonMarshal p) b hwf).filter
      fun e => decide (e.1 ∉ ps.map fun p => p.ID)
    rw [List.filter_cons_of_pos (by simpa using hnd'.1), List.filter_filter] at hf
    have hfun : (fun e : Bytes × Bytes =>
          (decide (e.1 ∉ ps.map fun p => p.ID) && decide (e.1 ≠ p.ID)))
        = fun e => decide (e.1 ∉ (p :: ps).map fun p => p.ID) := by
      funext e
      simp only [List.map_cons, List.mem_cons, not_or, Bool.decide_and]
      rw [Bool.and_comm]
    rw [hfun] at hf
    refine (List.Perm.append_left _ hf).trans ?_
    simp only [List.map_cons]
    exact List.perm_middle

theorem keyedListing_pairwise (db : DB) (hwf : DB.WF db) :
    (keyedListing db).Pairwise fun a b => bytesLess b.1 a.1 := by
  unfold keyedListing cursorWalk
  have h : (DB.entries db).reverse.Pairwise fun a b => bytesLess b.1 a.1 :=
    List.pairwise_reverse.2 (entries_WF db hwf)
  generalize (DB.entries db).reverse = l at h
  induction l with
  | nil => exact List.Pairwise.nil
  | cons x rest ih =>
    have hp := List.pairwise_cons.1 h
    cases hv : jsonUnmarshal x.2 with
    | none =>
      simp only [List.filterMap_cons, hv, Option.map_none']
      exact ih hp.2
    | some p =>
      simp only [List.filterMap_cons, hv, Option.map_some']
      refine List.pairwise_cons.2 ⟨?_, ih hp.2⟩
      intro e he
      obtain ⟨y, hy, hye⟩ := List.mem_filterMap.1 he
      cases hv' : jsonUnmarshal y.2 with
      | none => simp [hv'] at hye
      | some q =>
        simp only [hv', Option.map_some', Option.some.injEq] at hye
        subst hye
        exact hp.1 y hy

theorem mem_keyedListing (db : DB) (p q : Postback) (hq : readBack p = some q)
    (h : entryOf p ∈ DB.entries db) : (p.ID, q) ∈ keyedListing db := by
  unfold keyedListing cursorWalk
  refine List.mem_filterMap.2 ⟨entryOf p, List.mem_reverse.2 h, ?_⟩
  have : jsonUnmarshal (jsonMarshal p) = some q := hq
  simp [entryOf, this]

/-! ## UTF-8: decoding a valid encoding and encoding it again -/

theorem isCont_iff (b : Nat) : isCont b = true ↔ 0x80 ≤ b ∧ b ≤ 0xBF := by
  simp [isCont]

theorem decodeRune_valid (b : Nat) (rest : Bytes) (hb : 0x80 ≤ b)
    (hv : ¬ ((decodeRune (b :: rest)).1 = RuneError ∧ (decodeRune (b :: rest)).2 = 1)) :
    ∃ w r', rest = w ++ r' ∧ (decodeRune (b :: rest)).2 = w.length + 1 ∧
      encodeRune (decodeRune (b :: rest)).1 = b :: w ∧
      ∀ t, decodeRune (b :: (w ++ t)) = decodeRune (b :: rest) := by
  have hb' : ¬ b < 0x80 := by omega
  by_cases h1 : b < 0xC2
  · exact absurd (by simp [decodeRune, hb', h1]) hv
  by_cases h2 : b < 0xE0
  · cases rest with
    | nil => exact absurd (by simp [decodeRune, hb', h1, h2]) hv
    | cons b1 r =>
      by_cases hc : isCont b1 = true
      · refine ⟨[b1], r, rfl, ?_, ?_, ?_⟩
        · simp [decodeRune, hb', h1, h2, hc]
        · have hc' := (isCont_iff b1).1 hc
          simp only [decodeRune, hb', h1, h2, hc, if_true, if_false, encodeRune]
          have e1 : ¬ (b % 32 * 64 + b1 % 64 ≤ 0x7F) := by omega
          have e2 : b % 32 * 64 + b1 % 64 ≤ 0x7FF := by omega
          rw [if_neg e1, if_pos e2]
          congr 1
          · omega
          · congr 1; omega
        · intro t
          simp [decodeRune, hb', h1, h2, hc]
      · exact absurd (by simp [decodeRune, hb', h1, h2, hc]) hv
  by_cases h3 : b < 0xF0
  · have hdef : ∀ l, decodeRune (b :: l) =
        match l with
        | b1 :: b2 :: _ =>
          if ((if b = 0xE0 then 0xA0 else 0x80) ≤ b1 && b1 ≤ (if b = 0xED then 0x9F else 0xBF)
              && isCont b2) = true then
            (((b % 16) * 64 + b1 % 64) * 64 + b2 % 64, 3)
          else (RuneError, 1)
        | _ => (RuneError, 1) := by
      intro l
      simp only [decodeRune, hb', h1, h2, h3, if_true, if_false]
    rw [hdef] at hv ⊢
    match rest, hv with
    | [], hv => exact absurd (by simp) hv
    | [_], hv => exact absurd (by simp) hv
    | b1 :: b2 :: r, hv =>
      simp only at hv ⊢
      by_cases hc : ((if b = 0xE0 then 0xA0 else 0x80) ≤ b1
          && b1 ≤ (if b = 0xED then 0x9F else 0xBF) && isCont b2) = true
      · rw [if_pos hc] at hv ⊢
        refine ⟨[b1, b2], r, rfl, rfl, ?_, ?_⟩
        · simp only [Bool.and_eq_true, decide_eq_true_eq, isCont_iff] at hc
          obtain ⟨⟨hlo, hhi⟩, hc2, hc2'⟩ := hc
          simp only [encodeRune]
          have e1 : ¬ ((b % 16 * 64 + b1 % 64) * 64 + b2 % 64 ≤ 0x7F) := by
            split_ifs at hlo hhi <;> omega
          have e2 : ¬ ((b % 16 * 64 + b1 % 64) * 64 + b2 % 64 ≤ 0x7FF) := by
            split_ifs at hlo hhi <;> omega
          have e3 : ¬ ((decide (0x10FFFF < (b % 16 * 64 + b1 % 64) * 64 + b2 % 64) ||
              (decide (0xD800 ≤ (b % 16 * 64 + b1 % 64) * 64 + b2 % 64) &&
               decide ((b % 16 * 64 + b1 % 64) * 64 + b2 % 64 ≤ 0xDFFF))) = true) := by
            simp only [Bool.or_eq_true, Bool.and_eq_true, decide_eq_true_eq]
            split_ifs at hlo hhi <;> omega
          have e4 : (b % 16 * 64 + b1 % 64) * 64 + b2 % 64 ≤ 0xFFFF := by omega
          rw [if_neg e1, if_neg e2, if_neg e3, if_pos e4]
          congr 1
          · split_ifs at hlo hhi <;> omega
          · congr 1
            · split_ifs at hlo hhi <;> omega
            · congr 1; omega
        · intro t
          rw [hdef]
          simp only [List.cons_append, List.nil_append, if_pos hc]
      · rw [if_neg hc] at hv
        exact absurd ⟨rfl, rfl⟩ hv
  by_cases h4 : b < 0xF5
  · have hdef : ∀ l, decodeRune (b :: l) =
        match l with
        | b1 :: b2 :: b3 :: _ =>
          if ((if b = 0xF0 then 0x90 else 0x80) ≤ b1 && b1 ≤ (if b = 0xF4 then 0x8F else 0xBF)
              && isCont b2 && isCont b3) = true then
            ((((b % 8) * 64 + b1 % 64) * 64 + b2 % 64) * 64 + b3 % 64, 4)
          else (RuneError, 1)
        | _ => (RuneError, 1) := by
      intro l
      simp only [decodeRune, hb', h1, h2, h3, h4, if_true, if_false]
    rw [hdef] at hv ⊢
    match rest, hv with
    | [], hv => exact absurd (by simp) hv
    | [_], hv => exact absurd (by simp) hv
    | [_, _], hv => exact absurd (by simp) hv
    | b1 :: b2 :: b3 :: r, hv =>
      simp only at hv ⊢
      by_cases hc : ((if b = 0xF0 then 0x90 else 0x80) ≤ b1
          && b1 ≤ (if b = 0xF4 then 0x8F else 0xBF) && isCont b2 && isCont b3) = true
      · rw [if_pos hc] at hv ⊢
        refine ⟨[b1, b2, b3], r, rfl, rfl, ?_, ?_⟩
        · simp only [Bool.and_eq_true, decide_eq_true_eq, isCont_iff] at hc
          obtain ⟨⟨⟨hlo, hhi⟩, hc2, hc2'⟩, hc3, hc3'⟩ := hc
          simp only [encodeRune]
          have e1 : ¬ (((b % 8 * 64 + b1 % 64) * 64 + b2 % 64) * 64 + b3 % 64 ≤ 0x7F) := by
            split_ifs at hlo hhi <;> omega
          have e2 : ¬ (((b % 8 * 64 + b1 % 64) * 64 + b2 % 64) * 64 + b3 % 64 ≤ 0x7FF) := by
            split_ifs at hlo hhi <;> omega
          have e3 : ¬ ((decide (0x10FFFF < ((b % 8 * 64 + b1 % 64) * 64 + b2 % 64) * 64 + b3 % 64) ||
              (decide (0xD800 ≤ ((b % 8 * 64 + b1 % 64) * 64 + b2 % 64) * 64 + b3 % 64) &&
               decide (((b % 8 * 64 + b1 % 64) * 64 + b2 % 64) * 64 + b3 % 64 ≤ 0xDFFF))) = true) := by
            simp only [Bool.or_eq_true, Bool.and_eq_true, decide_eq_true_eq]
            split_ifs at hlo hhi <;> omega
          have e4 : ¬ (((b % 8 * 64 + b1 % 64) * 64 + b2 % 64) * 64 + b3 % 64 ≤ 0xFFFF) := by
            split_ifs at hlo hhi <;> omega
          rw [if_neg e1, if_neg e2, if_neg e3, if_neg e4]
          congr 1
          · split_ifs at hlo hhi <;> omega
          · congr 1
            · split_ifs at hlo hhi <;> omega
            · congr 1
              · omega
              · congr 1; omega
        · intro t
          rw [hdef]
          simp only [List.cons_append, List.nil_append, if_pos hc]
      · rw [if_neg hc] at hv
        exact absurd ⟨rfl, rfl⟩ hv
  · exact absurd (by simp [decodeRune, hb', h1, h2, h3, h4]) hv

/-! ## Reading back an encoded string -/

theorem parseString_quote (F : Nat) (t : Bytes) :
    parseString (F + 1) (0x22 :: t) = some ([], t) := by
  simp [parseString]

theorem hexVal_hexDigit (n : Nat) (h : n < 16) : hexVal (hexDigit n) = some n := by
  have : n = 0 ∨ n = 1 ∨ n = 2 ∨ n = 3 ∨ n = 4 ∨ n = 5 ∨ n = 6 ∨ n = 7 ∨ n = 8 ∨ n = 9 ∨
      n = 10 ∨ n = 11 ∨ n = 12 ∨ n = 13 ∨ n = 14 ∨ n = 15 := by omega
  rcases this with h | h | h | h | h | h | h | h | h | h | h | h | h | h | h | h <;>
    subst h <;> decide

theorem hex4_eq {a b c d x y z w : Nat} (rest : Bytes) (ha : hexVal a = some x)
    (hb : hexVal b = some y) (hc : hexVal c = some z) (hd : hexVal d = some w) :
    hex4 (a :: b :: c :: d :: rest) = some (((x * 16 + y) * 16 + z) * 16 + w, rest) := by
  simp only [hex4]
  rw [ha, hb, hc, hd]

theorem parseString_ascii (b : Nat) (hb : b < 0x80) (F : Nat) (X : Bytes) :
    parseString (F + 1) ((if htmlSafe b = true then [b] else escapeASCII b) ++ X)
      = consBytes [b] (parseString F X) := by
  by_cases hs : htmlSafe b = true
  · rw [if_pos hs]
    simp only [htmlSafe, Bool.and_eq_true, decide_eq_true_eq, bne_iff_ne, ne_eq] at hs
    obtain ⟨⟨⟨⟨⟨⟨h1, h2⟩, h3⟩, h4⟩, _⟩, _⟩, _⟩ := hs
    have h5 : ¬ b < 0x20 := by omega
    simp only [List.singleton_append]
    simp only [parseString, h3, h4, h5, hb, if_true, if_false]
  · rw [if_neg hs]
    have hcases : b < 0x20 ∨ b = 0x22 ∨ b = 0x5C ∨ b = 0x3C ∨ b = 0x3E ∨ b = 0x26 := by
      by_contra hcon
      apply hs
      simp only [htmlSafe, Bool.and_eq_true, decide_eq_true_eq, bne_iff_ne, ne_eq]
      omega
    have hx1 := hexVal_hexDigit (b / 16) (by omega)
    have hx2 := hexVal_hexDigit (b % 16) (by omega)
    have henc : encodeRune b = [b] := by
      simp only [encodeRune]; rw [if_pos (by omega)]
    have hval : ((0 * 16 + 0) * 16 + b / 16) * 16 + b % 16 = b := by omega
    have hsur : isSurrogate b = false := by
      simp only [isSurrogate, Bool.and_eq_false_imp, decide_eq_true_eq, decide_eq_false_iff_not]
      omega
    have hgen : ∀ Y, parseString (F + 1)
        ([0x5C, 0x75, 0x30, 0x30, hexDigit (b / 16), hexDigit (b % 16)] ++ Y)
          = consBytes [b] (parseString F Y) := by
      intro Y
      have h0 : hexVal 0x30 = some 0 := by decide
      have h4 := hex4_eq Y h0 h0 hx1 hx2
      rw [hval] at h4
      simp only [List.cons_append, List.nil_append]
      simp only [parseString]
      rw [h4]
      simp only [hsur, henc]
      simp
    rcases hcases with h | h | h | h | h | h
    · have hsmall : b = 0x08 ∨ b = 0x0C ∨ b = 0x0A ∨ b = 0x0D ∨ b = 0x09 ∨
          (b ≠ 0x5C ∧ b ≠ 0x22 ∧ b ≠ 0x08 ∧ b ≠ 0x0C ∧ b ≠ 0x0A ∧ b ≠ 0x0D ∧ b ≠ 0x09) := by
        omega
      rcases hsmall with h' | h' | h' | h' | h' | h'
      · subst h'; simp [escapeASCII, parseString, simpleEscape]
      · subst h'; simp [escapeASCII, parseString, simpleEscape]
      · subst h'; simp [escapeASCII, parseString, simpleEscape]
      · subst h'; simp [escapeASCII, parseString, simpleEscape]
      · subst h'; simp [escapeASCII, parseString, simpleEscape]
      · obtain ⟨a1, a2, a3, a4, a5, a6, a7⟩ := h'
        have : escapeASCII b = [0x5C, 0x75, 0x30, 0x30, hexDigit (b / 16), hexDigit (b % 16)] := by
          simp [escapeASCII, a1, a2, a3, a4, a5, a6, a7]
        rw [this]
        exact hgen X
    · subst h; simp [escapeASCII, parseString, simpleEscape]
    · subst h; simp [escapeASCII, parseString, simpleEscape]
    · subst h
      have : escapeASCII 0x3C = [0x5C, 0x75, 0x30, 0x30, hexDigit (0x3C / 16), hexDigit (0x3C % 16)] := by
        decide
      rw [this]; exact hgen X
    · subst h
      have : escapeASCII 0x3E = [0x5C, 0x75, 0x30, 0x30, hexDigit (0x3E / 16), hexDigit (0x3E % 16)] := by
        decide
      rw [this]; exact hgen X
    · subst h
      have : escapeASCII 0x26 = [0x5C, 0x75, 0x30, 0x30, hexDigit (0x26 / 16), hexDigit (0x26 % 16)] := by
        decide
      rw [this]; exact hgen X

theorem parseString_raw (b : Nat) (hb : 0x80 ≤ b) (w X : Bytes) (F : Nat)
    (hw : (decodeRune (b :: (w ++ X))).2 = w.length + 1) :
    parseString (F + 1) (b :: (w ++ X))
      = consBytes (encodeRune (decodeRune (b :: (w ++ X))).1) (parseString F X) := by
  have h1 : ¬ b = 0x22 := by omega
  have h2 : ¬ b = 0x5C := by omega
  have h3 : ¬ b < 0x20 := by omega
  have h4 : ¬ b < 0x80 := by omega
  simp only [parseString, h1, h2, h3, h4, if_false, hw, Nat.add_sub_cancel,
    List.drop_left]

theorem parseString_lineSep (r : Nat) (hr : r = 0x2028 ∨ r = 0x2029) (F : Nat) (X : Bytes) :
    parseString (F + 1) ([0x5C, 0x75, 0x32, 0x30, 0x32, hexDigit (r % 16)] ++ X)
      = consBytes (encodeRune r) (parseString F X) := by
  have h2 : hexVal 0x32 = some 2 := by decide
  have h0 : hexVal 0x30 = some 0 := by decide
  have hx := hexVal_hexDigit (r % 16) (by omega)
  have h4 := hex4_eq X h2 h0 h2 hx
  have hval : ((2 * 16 + 0) * 16 + 2) * 16 + r % 16 = r := by omega
  rw [hval] at h4
  have hsur : isSurrogate r = false := by
    rcases hr with h | h <;> subst h <;> decide
  simp only [List.cons_append, List.nil_append]
  simp only [parseString]
  rw [h4]
  simp only [hsur]
  simp

theorem decodeRune_ascii (b : Nat) (hb : b < 0x80) (rest : Bytes) :
    decodeRune (b :: rest) = (b, 1) := by
  simp [decodeRune, hb]

theorem parseString_appendStringLoop (fuel : Nat) : ∀ (s t : Bytes) (F : Nat),
    s.length ≤ fuel → validUTF8Aux fuel s = true → (appendStringLoop fuel s).length < F →
    parseString F (appendStringLoop fuel s ++ 0x22 :: t) = some (s, t) := by
  induction fuel with
  | zero =>
    intro s t F hlen _ hF
    have hs : s = [] := List.length_eq_zero.1 (by omega)
    subst hs
    obtain ⟨F', rfl⟩ : ∃ F', F = F' + 1 := ⟨F - 1, by omega⟩
    simp only [appendStringLoop, List.nil_append]
    exact parseString_quote F' t
  | succ fuel ih =>
    intro s t F hlen hvalid hF
    obtain ⟨F', rfl⟩ : ∃ F', F = F' + 1 := ⟨F - 1, by omega⟩
    cases s with
    | nil =>
      simp only [appendStringLoop, List.nil_append]
      exact parseString_quote F' t
    | cons b rest =>
      by_cases hb : b < 0x80
      · have hd := decodeRune_ascii b hb rest
        have hv' : validUTF8Aux fuel rest = true := by
          simp only [validUTF8Aux, hd] at hvalid
          have hne : ¬ b = RuneError := by unfold RuneError; omega
          simpa [hne] using hvalid
        have hout : appendStringLoop (fuel + 1) (b :: rest)
            = (if htmlSafe b = true then [b] else escapeASCII b) ++ appendStringLoop fuel rest := by
          simp only [appendStringLoop, hb, if_true]
        rw [hout] at hF ⊢
        rw [List.append_assoc, parseString_ascii b hb]
        rw [ih rest t F' (by simpa using hlen) hv' ?_]
        · rfl
        · have : 1 ≤ (if htmlSafe b = true then [b] else escapeASCII b).length := by
            split_ifs
            · simp
            · simp only [escapeASCII]; split_ifs <;> simp
          rw [List.length_append] at hF
          omega
      · have hb' : 0x80 ≤ b := by omega
        have hnv : ¬ ((decodeRune (b :: rest)).1 = RuneError ∧ (decodeRune (b :: rest)).2 = 1) := by
          intro hcon
          simp [validUTF8Aux, hcon.1, hcon.2] at hvalid
        have hnv' : ¬ ((decide ((decodeRune (b :: rest)).1 = RuneError)
            && decide ((decodeRune (b :: rest)).2 = 1)) = true) := by
          simpa using hnv
        obtain ⟨w, r', hrest, hlen2, henc, hdec⟩ := decodeRune_valid b rest hb' hnv
        have hdrop : rest.drop ((decodeRune (b :: rest)).2 - 1) = r' := by
          rw [hlen2, hrest]; simp
        have htake : (b :: rest).take (decodeRune (b :: rest)).2 = b :: w := by
          rw [hlen2, hrest]; simp
        have hv' : validUTF8Aux fuel r' = true := by
          simp only [validUTF8Aux] at hvalid
          rw [if_neg hnv', hdrop] at hvalid
          exact hvalid
        have hlen' : r'.length ≤ fuel := by
          rw [hrest] at hlen
          simp only [List.length_cons, List.length_append] at hlen
          omega
        by_cases hls : (decodeRune (b :: rest)).1 = 0x2028 ∨ (decodeRune (b :: rest)).1 = 0x2029
        · have hls' : (decide ((decodeRune (b :: rest)).1 = 0x2028)
              || decide ((decodeRune (b :: rest)).1 = 0x2029)) = true := by simpa using hls
          have hout : appendStringLoop (fuel + 1) (b :: rest)
              = [0x5C, 0x75, 0x32, 0x30, 0x32, hexDigit ((decodeRune (b :: rest)).1 % 16)]
                ++ appendStringLoop fuel r' := by
            simp only [appendStringLoop, hb, if_false]
            rw [if_neg hnv', if_pos hls', hdrop]
          rw [hout] at hF ⊢
          rw [List.append_assoc, parseString_lineSep _ hls]
          rw [ih r' t F' hlen' hv' (by simp only [List.length_append, List.length_cons] at hF; omega)]
          rw [henc, hrest]
          rfl
        · have hls' : ¬ ((decide ((decodeRune (b :: rest)).1 = 0x2028)
              || decide ((decodeRune (b :: rest)).1 = 0x2029)) = true) := by simpa using hls
          have hout : appendStringLoop (fuel + 1) (b :: rest)
              = (b :: w) ++ appendStringLoop fuel r' := by
            simp only [appendStringLoop, hb, if_false]
            rw [if_neg hnv', if_neg hls', hdrop, htake]
          rw [hout] at hF ⊢
          have hd2 := hdec (appendStringLoop fuel r' ++ 0x22 :: t)
          have hassoc : (b :: w ++ appendStringLoop fuel r') ++ 0x22 :: t
              = b :: (w ++ (appendStringLoop fuel r' ++ 0x22 :: t)) := by simp
          rw [hassoc, parseString_raw b hb' w _ F' (by rw [hd2]; exact hlen2), hd2]
          rw [ih r' t F' hlen' hv' (by simp only [List.length_append, List.length_cons] at hF; omega)]
          rw [henc, hrest]
          rfl

theorem parseString_appendString (s t : Bytes) (hs : validUTF8 s = true) :
    ∃ body, appendString s ++ t = 0x22 :: body ∧
      parseString body.length body = some (s, t) := by
  refine ⟨appendStringLoop s.length s ++ 0x22 :: t, ?_, ?_⟩
  · simp [appendString]
  · exact parseString_appendStringLoop s.length s t _ (le_refl _) hs (by simp)

/-! ## Reading back an encoded object -/

theorem skipWS_cons (c : Nat) (rest : Bytes) (h : isSpace c = false) :
    skipWS (c :: rest) = c :: rest := by
  simp [skipWS, h]

theorem parseValue_string (s t : Bytes) (hs : validUTF8 s = true) (f d : Nat) :
    parseValue (f + 1) d (appendString s ++ t) = some (JValue.string s, t) := by
  obtain ⟨body, hbody, hparse⟩ := parseString_appendString s t hs
  rw [hbody, parseValue, skipWS_cons _ _ (by decide)]
  simp only [Nat.reduceEqDiff, if_false, if_true]
  rw [hparse]

theorem parseMembers_comma (k V Y : Bytes) (v : JValue) (hk : validUTF8 k = true) (f d : Nat)
    (hV : parseValue f d V = some (v, 0x2C :: Y)) :
    parseMembers (f + 1) d (appendString k ++ 0x3A :: V)
      = match parseMembers f d Y with
        | some (kvs, rest) => some ((k, v) :: kvs, rest)
        | none => none := by
  obtain ⟨body, hbody, hparse⟩ := parseString_appendString k (0x3A :: V) hk
  rw [hbody, parseMembers, skipWS_cons _ _ (by decide)]
  simp only [if_true]
  rw [hparse]
  simp only [skipWS_cons 0x3A V (by decide), if_true]
  rw [hV]
  simp only [skipWS_cons 0x2C Y (by decide), if_true]

theorem parseMembers_brace (k V Y : Bytes) (v : JValue) (hk : validUTF8 k = true) (f d : Nat)
    (hV : parseValue f d V = some (v, 0x7D :: Y)) :
    parseMembers (f + 1) d (appendString k ++ 0x3A :: V) = some ([(k, v)], Y) := by
  obtain ⟨body, hbody, hparse⟩ := parseString_appendString k (0x3A :: V) hk
  rw [hbody, parseMembers, skipWS_cons _ _ (by decide)]
  simp only [if_true]
  rw [hparse]
  simp only [skipWS_cons 0x3A V (by decide), if_true]
  rw [hV]
  simp only [skipWS_cons 0x7D Y (by decide), Nat.reduceEqDiff, if_false, if_true]

theorem parseMembers_marshalMembers (kvs : List (Bytes × Bytes)) : ∀ (g d : Nat) (Y : Bytes),
    kvs ≠ [] → (∀ kv ∈ kvs, validUTF8 kv.1 = true ∧ validUTF8 kv.2 = true) →
    parseMembers (kvs.length + 1 + g) d (marshalMembers kvs ++ 0x7D :: Y)
      = some (kvs.map fun kv => (kv.1, JValue.string kv.2), Y) := by
  induction kvs with
  | nil => intro g d Y h; exact absurd rfl h
  | cons kv rest ih =>
    intro g d Y _ hvalid
    have hkv := hvalid kv (List.mem_cons_self _ _)
    cases rest with
    | nil =>
      have hfuel : [kv].length + 1 + g = (g + 1) + 1 := by simp; omega
      have hdata : marshalMembers [kv] ++ 0x7D :: Y
          = appendString kv.1 ++ 0x3A :: (appendString kv.2 ++ 0x7D :: Y) := by
        simp [marshalMembers]
      rw [hfuel, hdata,
        parseMembers_brace kv.1 _ Y (JValue.string kv.2) hkv.1 (g + 1) d
          (parseValue_string kv.2 _ hkv.2 g d)]
      rfl
    | cons kv2 rest2 =>
      have hfuel : (kv :: kv2 :: rest2).length + 1 + g = ((kv2 :: rest2).length + 1 + g) + 1 := by
        simp only [List.length_cons]; omega
      have hdata : marshalMembers (kv :: kv2 :: rest2) ++ 0x7D :: Y
          = appendString kv.1 ++ 0x3A ::
              (appendString kv.2 ++ 0x2C :: (marshalMembers (kv2 :: rest2) ++ 0x7D :: Y)) := by
        simp [marshalMembers]
      have hfuel2 : (kv2 :: rest2).length + 1 + g = ((kv2 :: rest2).length + g) + 1 := by omega
      rw [hfuel, hdata,
        parseMembers_comma kv.1 _ _ (JValue.string kv.2) hkv.1 _ d
          (by rw [hfuel2]; exact parseValue_string kv.2 _ hkv.2 _ d),
        ih g d Y (List.cons_ne_nil _ _) fun x hx => hvalid x (List.mem_cons_of_mem _ hx)]
      rfl

theorem marshalMembers_head (kv : Bytes × Bytes) (kvs : List (Bytes × Bytes)) :
    ∃ tl, marshalMembers (kv :: kvs) = 0x22 :: tl := by
  cases kvs with
  | nil => exact ⟨_, by simp [marshalMembers, appendString]; rfl⟩
  | cons kv2 rest => exact ⟨_, by simp [marshalMembers, appendString]; rfl⟩

theorem parseValue_map (kvs : List (Bytes × Bytes)) (g d : Nat) (Y : Bytes)
    (hne : kvs ≠ []) (hd : d < maxNestingDepth)
    (hvalid : ∀ kv ∈ kvs, validUTF8 kv.1 = true ∧ validUTF8 kv.2 = true) :
    parseValue (kvs.length + 2 + g) d (0x7B :: (marshalMembers kvs ++ 0x7D :: Y))
      = some (JValue.object (kvs.map fun kv => (kv.1, JValue.string kv.2)), Y) := by
  cases kvs with
  | nil => exact absurd rfl hne
  | cons kv rest =>
    obtain ⟨tl, htl⟩ := marshalMembers_head kv rest
    have hfuel : (kv :: rest).length + 2 + g = ((kv :: rest).length + 1 + g) + 1 := by omega
    have hdepth : ¬ maxNestingDepth < d + 1 := by omega
    have hpm := parseMembers_marshalMembers (kv :: rest) g (d + 1) Y hne hvalid
    rw [hfuel, parseValue, skipWS_cons _ _ (by decide)]
    simp only [if_true, if_neg hdepth]
    rw [htl] at hpm ⊢
    simp only [List.cons_append]  at hpm ⊢
    rw [skipWS_cons _ _ (by decide)]
    simp only [Nat.reduceEqDiff, if_false]
    rw [hpm]

/-! ## Round trip of a record -/

/-- The bytes `json.Marshal` writes after the `id` member. -/
theorem jsonMarshal_eq (p : Postback) :
    jsonMarshal p = 0x7B :: (appendString (str "method") ++ 0x3A :: (appendString p.Method ++
      0x2C :: (appendString (str "url") ++ 0x3A :: (appendString p.URL ++
      0x2C :: (appendString (str "id") ++ 0x3A :: (appendString p.ID ++
        ((match p.Args with
          | some (kv :: kvs) =>
            0x2C :: (appendString (str "args") ++ 0x3A ::
              0x7B :: (marshalMembers (kv :: kvs) ++ [0x7D]))
          | _ => []) ++
         ((if p.Body = [] then []
           else 0x2C :: (appendString (str "body") ++ 0x3A :: appendString p.Body)) ++
          [0x7D])))))))) := by
  have e1 : str "\x7b\"method\":" = 0x7B :: (appendString (str "method") ++ [0x3A]) := by decide
  have e2 : str ",\"url\":" = 0x2C :: (appendString (str "url") ++ [0x3A]) := by decide
  have e3 : str ",\"id\":" = 0x2C :: (appendString (str "id") ++ [0x3A]) := by decide
  have e4 : str ",\"args\":\x7b" = 0x2C :: (appendString (str "args") ++ [0x3A, 0x7B]) := by decide
  have e5 : str ",\"body\":" = 0x2C :: (appendString (str "body") ++ [0x3A]) := by decide
  unfold jsonMarshal
  rw [e1, e2, e3, e4, e5]
  rcases p.Args with _ | _ | ⟨kv, kvs⟩ <;> by_cases hb : p.Body = [] <;>
    simp [hb]

theorem member_comma (k v Y : Bytes) (hk : validUTF8 k = true) (hv : validUTF8 v = true)
    (f d : Nat) :
    parseMembers (f + 2) d (appendString k ++ 0x3A :: (appendString v ++ 0x2C :: Y))
      = match parseMembers (f + 1) d Y with
        | some (kvs, rest) => some ((k, JValue.string v) :: kvs, rest)
        | none => none :=
  parseMembers_comma k _ Y (JValue.string v) hk (f + 1) d (parseValue_string v _ hv f d)

theorem member_brace (k v Y : Bytes) (hk : validUTF8 k = true) (hv : validUTF8 v = true)
    (f d : Nat) :
    parseMembers (f + 2) d (appendString k ++ 0x3A :: (appendString v ++ 0x7D :: Y))
      = some ([(k, JValue.string v)], Y) :=
  parseMembers_brace k _ Y (JValue.string v) hk (f + 1) d (parseValue_string v _ hv f d)

theorem parseMembers_tail (k v : Bytes) (hk : validUTF8 k = true) (hv : validUTF8 v = true)
    (args : Option (List (Bytes × Bytes))) (body : Bytes)
    (hargs : ∀ kv ∈ args.getD [], validUTF8 kv.1 = true ∧ validUTF8 kv.2 = true)
    (hbody : validUTF8 body = true) (g : Nat) :
    parseMembers ((args.getD []).length + 6 + g) 1
      (appendString k ++ 0x3A :: (appendString v ++
        ((match args with
          | some (kv :: kvs) =>
            0x2C :: (appendString (str "args") ++ 0x3A ::
              0x7B :: (marshalMembers (kv :: kvs) ++ [0x7D]))
          | _ => []) ++
         ((if body = [] then []
           else 0x2C :: (appendString (str "body") ++ 0x3A :: appendString body)) ++
          [0x7D]))))
      = some ((k, JValue.string v) :: (argsMember args ++ bodyMember body), []) := by
  have hA : validUTF8 (str "args") = true := by decide
  have hB : validUTF8 (str "body") = true := by decide
  have hnoargs : ∀ n : Nat, body = [] →
      parseMembers (n + 6 + g) 1 (appendString k ++ 0x3A :: (appendString v ++ [0x7D]))
        = some ([(k, JValue.string v)], []) := by
    intro n _
    have : n + 6 + g = (n + 4 + g) + 2 := by omega
    rw [this]
    exact member_brace k v [] hk hv _ 1
  have hnoargsB : ∀ n : Nat,
      parseMembers (n + 6 + g) 1 (appendString k ++ 0x3A :: (appendString v ++
        0x2C :: (appendString (str "body") ++ 0x3A :: (appendString body ++ [0x7D]))))
        = some ([(k, JValue.string v), (str "body", JValue.string body)], []) := by
    intro n
    have e1 : n + 6 + g = (n + 4 + g) + 2 := by omega
    have e2 : n + 4 + g + 1 = (n + 3 + g) + 2 := by omega
    rw [e1, member_comma k v _ hk hv, e2, member_brace (str "body") body [] hB hbody]
  unfold argsMember bodyMember
  rcases args with _ | _ | ⟨kv, kvs⟩
  · by_cases hb : body = []
    · simp only [hb, if_true, List.nil_append, List.append_nil]
      exact hnoargs _ hb
    · simp only [hb, if_false, List.nil_append, List.append_nil, List.cons_append,
        List.append_assoc]
      exact hnoargsB _
  · by_cases hb : body = []
    · simp only [hb, if_true, List.nil_append, List.append_nil]
      exact hnoargs _ hb
    · simp only [hb, if_false, List.nil_append, List.append_nil, List.cons_append,
        List.append_assoc]
      exact hnoargsB _
  · have hvalid : ∀ x ∈ kv :: kvs, validUTF8 x.1 = true ∧ validUTF8 x.2 = true := hargs
    simp only [Option.getD]
    by_cases hb : body = []
    · simp only [hb, if_true, List.nil_append, List.append_nil, List.cons_append,
        List.append_assoc, List.singleton_append]
      have e1 : (kv :: kvs).length + 6 + g = ((kv :: kvs).length + 4 + g) + 2 := by omega
      have e2 : (kv :: kvs).length + 4 + g + 1 = ((kv :: kvs).length + 2 + (g + 2)) + 1 := by omega
      rw [e1, member_comma k v _ hk hv, e2,
        parseMembers_brace (str "args") _ [] _ hA _ 1
          (parseValue_map (kv :: kvs) (g + 2) 1 [0x7D] (List.cons_ne_nil _ _) (by decide) hvalid)]
    · simp only [hb, if_false, List.nil_append, List.append_nil, List.cons_append,
        List.append_assoc, List.singleton_append]
      have e1 : (kv :: kvs).length + 6 + g = ((kv :: kvs).length + 4 + g) + 2 := by omega
      have e2 : (kv :: kvs).length + 4 + g + 1 = ((kv :: kvs).length + 2 + (g + 2)) + 1 := by omega
      have e3 : (kv :: kvs).length + 2 + (g + 2) = ((kv :: kvs).length + 2 + g) + 2 := by omega
      rw [e1, member_comma k v _ hk hv, e2,
        parseMembers_comma (str "args") _ _ _ hA _ 1
          (parseValue_map (kv :: kvs) (g + 2) 1 _ (List.cons_ne_nil _ _) (by decide) hvalid),
        e3, member_brace (str "body") body [] hB hbody]

theorem appendString_length (s : Bytes) : 2 ≤ (appendString s).length := by
  simp [appendString]

theorem marshalMembers_length (kvs : List (Bytes × Bytes)) :
    kvs.length ≤ (marshalMembers kvs).length := by
  induction kvs with
  | nil => simp
  | cons kv rest ih =>
    cases rest with
    | nil =>
      have := appendString_length kv.1
      simp [marshalMembers]; omega
    | cons kv2 rest2 =>
      have := appendString_length kv.1
      simp only [marshalMembers, List.length_append, List.length_cons] at ih ⊢
      omega

theorem jsonMarshal_length (p : Postback) :
    (p.Args.getD []).length + 8 ≤ (jsonMarshal p).length := by
  rw [jsonMarshal_eq]
  have h1 := appendString_length p.Method
  have h2 := appendString_length p.URL
  have h3 := appendString_length p.ID
  have h4 := appendString_length (str "method")
  have h5 := appendString_length (str "url")
  have h6 := appendString_length (str "id")
  simp only [List.length_cons, List.length_append, List.length_nil]
  rcases p.Args with _ | _ | ⟨kv, kvs⟩
  · simp only [Option.getD, List.length_nil]; omega
  · simp only [Option.getD, List.length_nil]; omega
  · have h7 := marshalMembers_length (kv :: kvs)
    simp only [Option.getD, List.length_cons, List.length_append, List.length_nil] at h7 ⊢
    omega

/-- The members of the object `json.Marshal` writes for a record. -/
theorem parseJSON_jsonMarshal (p : Postback) (hp : ValidStrings p) :
    parseJSON (jsonMarshal p) = some (JValue.object (membersOf p)) := by
  obtain ⟨hm, hu, hi, hb, ha⟩ := hp
  have hM : validUTF8 (str "method") = true := by decide
  have hU : validUTF8 (str "url") = true := by decide
  have hI : validUTF8 (str "id") = true := by decide
  obtain ⟨g, hg⟩ : ∃ g, (jsonMarshal p).length = (p.Args.getD []).length + 8 + g :=
    ⟨(jsonMarshal p).length - ((p.Args.getD []).length + 8), by
      have := jsonMarshal_length p; omega⟩
  unfold parseJSON
  rw [hg, jsonMarshal_eq]
  have e1 : (p.Args.getD []).length + 8 + g = ((p.Args.getD []).length + 6 + g) + 2 := by omega
  have e2 : (p.Args.getD []).length + 6 + g + 1 = ((p.Args.getD []).length + 5 + g) + 2 := by omega
  have e3 : (p.Args.getD []).length + 5 + g + 1 = (p.Args.getD []).length + 6 + g := by omega
  have hpm := member_comma (str "method") p.Method
    (appendString (str "url") ++ 0x3A :: (appendString p.URL ++
      0x2C :: (appendString (str "id") ++ 0x3A :: (appendString p.ID ++
        ((match p.Args with
          | some (kv :: kvs) =>
            0x2C :: (appendString (str "args") ++ 0x3A ::
              0x7B :: (marshalMembers (kv :: kvs) ++ [0x7D]))
          | _ => []) ++
         ((if p.Body = [] then []
           else 0x2C :: (appendString (str "body") ++ 0x3A :: appendString p.Body)) ++
          [0x7D]))))))
    hM hm ((p.Args.getD []).length + 6 + g) 1
  rw [e2, member_comma (str "url") p.URL _ hU hu, e3,
    parseMembers_tail (str "id") p.ID hI hi p.Args p.Body ha hb g] at hpm
  simp only at hpm
  obtain ⟨tl, htl⟩ : ∃ tl, appendString (str "method") = 0x22 :: tl := ⟨_, rfl⟩
  rw [htl] at hpm ⊢
  simp only [List.cons_append] at hpm ⊢
  rw [parseValue, skipWS_cons _ _ (by decide)]
  simp only [if_true]
  rw [if_neg (by decide), skipWS_cons _ _ (by decide)]
  simp only [Nat.reduceEqDiff, if_false, Nat.zero_add]
  rw [← e1] at hpm
  rw [hpm]
  simp [skipWS, membersOf]

theorem decodeMapMembers_strings (kvs : List (Bytes × Bytes)) :
    ∀ m : List (Bytes × Bytes), Bucket.WF (m ++ kvs) →
      decodeMapMembers m (kvs.map fun kv => (kv.1, JValue.string kv.2)) = some (m ++ kvs) := by
  induction kvs with
  | nil => intro m _; simp [decodeMapMembers]
  | cons kv rest ih =>
    intro m hwf
    have hlt : ∀ e ∈ m, bytesLess e.1 kv.1 := by
      intro e he
      exact (List.pairwise_append.1 hwf).2.2 e he kv (List.mem_cons_self _ _)
    simp only [List.map_cons, decodeMapMembers, decodeString]
    rw [mapSet_append kv.1 kv.2 m hlt, ih (m ++ [(kv.1, kv.2)]) (by simpa using hwf)]
    simp

theorem decodeFields_membersOf (p : Postback) (hw : ArgsWF p) :
    decodeFields Postback.zero (membersOf p) = some (emptyArgsAsNil p) := by
  have f1 : fieldOf (str "method") = some Field.method := by decide
  have f2 : fieldOf (str "url") = some Field.url := by decide
  have f3 : fieldOf (str "id") = some Field.id := by decide
  have f4 : fieldOf (str "args") = some Field.args := by decide
  have f5 : fieldOf (str "body") = some Field.body := by decide
  obtain ⟨m, u, i, a, b⟩ := p
  unfold ArgsWF at hw
  simp only [membersOf, decodeFields, f1, f2, f3, decodeString, Option.some_bind,
    Postback.zero, emptyArgsAsNil]
  rcases a with _ | _ | ⟨kv, kvs⟩
  · by_cases hb : b = []
    · simp [argsMember, bodyMember, hb, decodeFields]
    · simp [argsMember, bodyMember, hb, decodeFields, f5, decodeString]
  · by_cases hb : b = []
    · simp [argsMember, bodyMember, hb, decodeFields]
    · simp [argsMember, bodyMember, hb, decodeFields, f5, decodeString]
  · have hd := decodeMapMembers_strings (kv :: kvs) [] (by simpa using hw)
    simp only [List.nil_append] at hd
    by_cases hb : b = []
    · simp only [argsMember, bodyMember, hb, if_true, List.append_nil, decodeFields, f4,
        decodeArgs, Option.getD, hd, Option.map_some', Option.some_bind]
    · simp only [argsMember, bodyMember, hb, if_false, List.singleton_append, decodeFields, f4,
        f5, decodeArgs, Option.getD, hd, Option.map_some', Option.some_bind, decodeString]

/-- Decoding the encoding of a record with valid UTF-8 strings gives the record
back, an empty `Args` map as the nil map. -/
theorem jsonUnmarshal_jsonMarshal (p : Postback) (hv : ValidStrings p) (hw : ArgsWF p) :
    jsonUnmarshal (jsonMarshal p) = some (emptyArgsAsNil p) := by
  unfold jsonUnmarshal
  rw [parseJSON_jsonMarshal p hv]
  exact decodeFields_membersOf p hw

/-! ## Deleting -/

/-- C3: deleting an identifier that is not a key of the store (also when the
`"postbacks"` bucket is absent) returns no error and leaves the store
unchanged; and deleting the same identifier twice gives the same store and the
same success result as deleting it once. -/
theorem deletePostback_absent_idempotent (db : DB) (id : Bytes) (hwf : DB.WF db) :
    deletePostback id none = (none, none) ∧
    ((∀ e ∈ DB.entries db, e.1 ≠ id) → deletePostback id db = (none, db)) ∧
    (deletePostback id db).1 = none ∧
    deletePostback id (deletePostback id db).2 = deletePostback id db := by
  refine ⟨rfl, ?_, ?_, ?_⟩
  · intro habs
    cases db with
    | none => rfl
    | some b => rw [deletePostback_some, removeKey_of_absent id b habs]
  · cases db <;> rfl
  · cases db with
    | none => rfl
    | some b =>
      rw [deletePostback_some, deletePostback_some]
      rw [removeKey_of_absent id _ (removeKey_absent_after id b hwf)]

/-- Witness for C3: a store holding the key `"1000"`, deleting `"2000"` (absent)
and deleting twice. -/
theorem deletePostback_absent_idempotent_witness :
    DB.WF (some [(str "1000", str "x")]) ∧
    deletePostback (str "2000") (some [(str "1000", str "x")])
      = (none, some [(str "1000", str "x")]) ∧
    deletePostback (str "1000") (deletePostback (str "1000") (some [(str "1000", str "x")])).2
      = deletePostback (str "1000") (some [(str "1000", str "x")]) :=
  ⟨by decide,
   (deletePostback_absent_idempotent (some [(str "1000", str "x")]) (str "2000")
      (by decide)).2.1 (by decide),
   (deletePostback_absent_idempotent (some [(str "1000", str "x")]) (str "1000")
      (by decide)).2.2.2⟩

/-! ## Listing -/

/-- C7: for every store state (the bucket absent or empty included) and every
limit `≤ 0`, `getPostbacks` returns no error and an empty, non-nil slice. -/
theorem getPostbacks_nonpositive (db : DB) (limit : Int) (h : limit ≤ 0) :
    getPostbacks limit db = (some [], none) := by
  rw [getPostbacks_eq]
  have : limit.toNat = 0 := by omega
  simp [this]

/-- Witness for C7: limit `-3` on the three-record store. -/
theorem getPostbacks_nonpositive_witness :
    (-3 : Int) ≤ 0 ∧ getPostbacks (-3) scenarioDB = (some [], none) :=
  ⟨by decide, getPostbacks_nonpositive scenarioDB (-3) (by decide)⟩

set_option maxRecDepth 1000000 in
/-- C5: `getPostbacks` returns no error and exactly the first `limit` elements
of the sequence of decodable stored records taken in descending key order:
undecodable values are skipped, do not stop the scan and do not count toward the
limit. In particular, with the keys `"1000"`, `"1001"`, `"1002"` of which
`"1001"` holds corrupted bytes, `getPostbacks(3)` returns exactly the two valid
records, `"1002"` then `"1000"`. -/
theorem getPostbacks_skips_undecodable :
    (∀ (db : DB) (limit : Int),
      getPostbacks limit db =
        (some (((DB.entries db).reverse.filterMap fun e => jsonUnmarshal e.2).take limit.toNat),
          none)) ∧
    jsonUnmarshal (str "\x7b\"method\":\"POST\",\"url") = none ∧
    getPostbacks 3
        (some [(str "1000", jsonMarshal (record "1000" "a")),
               (str "1001", str "\x7b\"method\":\"POST\",\"url"),
               (str "1002", jsonMarshal (record "1002" "c"))])
      = (some [record "1002" "c", record "1000" "a"], none) := by
  refine ⟨?_, by decide, by decide⟩
  intro db limit
  rw [getPostbacks_eq, fullListing_eq]
  rfl

theorem keyedListing_filter (b : Bucket) (id : Bytes) :
    keyedListing (some (b.filter fun e => decide (e.1 ≠ id)))
      = (keyedListing (some b)).filter fun e => decide (e.1 ≠ id) := by
  unfold keyedListing cursorWalk DB.entries
  simp only []
  rw [← List.filter_reverse]
  generalize b.reverse = l
  induction l with
  | nil => rfl
  | cons x rest ih =>
    by_cases h : x.1 = id
    · rw [List.filter_cons_of_neg (by simpa using h), ih]
      cases hv : jsonUnmarshal x.2 with
      | none => simp [List.filterMap_cons, hv]
      | some p =>
        simp only [List.filterMap_cons, hv, Option.map_some']
        rw [List.filter_cons_of_neg (by simpa using h)]
    · rw [List.filter_cons_of_pos (by simpa using h)]
      cases hv : jsonUnmarshal x.2 with
      | none => simp only [List.filterMap_cons, hv, Option.map_none', ih]
      | some p =>
        simp only [List.filterMap_cons, hv, Option.map_some']
        rw [List.filter_cons_of_pos (by simpa using h), ih]

set_option maxRecDepth 1000000 in
/-- C6: for a store and an identifier present in it, `deletePostback` returns no
error, removes exactly the entry with that key and leaves every other entry
unchanged, so that `getPostbacks(limit)` afterwards returns the first `limit`
records of the previous full descending listing with the record stored under
the identifier removed. Scenario: after inserting `"1000"`, `"1001"`, `"1002"`
with bodies `"a"`, `"b"`, `"c"`, `getPostbacks(2)` returns `"1002"`, `"1001"`,
and after `deletePostback("1001")`, `getPostbacks(3)` returns `"1002"`,
`"1000"`. -/
theorem deletePostback_removes_exactly :
    (∀ (db : DB) (id : Bytes) (limit : Int), DB.WF db → DB.lookup id db ≠ none →
      (deletePostback id db).1 = none ∧
      DB.entries (deletePostback id db).2 = (DB.entries db).filter (fun e => decide (e.1 ≠ id)) ∧
      DB.lookup id (deletePostback id db).2 = none ∧
      (∀ k, k ≠ id → DB.lookup k (deletePostback id db).2 = DB.lookup k db) ∧
      getPostbacks limit (deletePostback id db).2 =
        (some ((((keyedListing db).filter fun e => decide (e.1 ≠ id)).map Prod.snd).take
          limit.toNat), none)) ∧
    getPostbacks 2 scenarioDB = (some [record "1002" "c", record "1001" "b"], none) ∧
    getPostbacks 3 (deletePostback (str "1001") scenarioDB).2
      = (some [record "1002" "c", record "1000" "a"], none) := by
  refine ⟨?_, by decide, by decide⟩
  intro db id limit hwf hpresent
  cases db with
  | none => exact absurd rfl hpresent
  | some b =>
    have hwf' : Bucket.WF b := hwf
    have hdel : deletePostback id (some b) = (none, some (b.filter fun e => decide (e.1 ≠ id))) := by
      rw [deletePostback_some, removeKey_eq_filter id b hwf']
    rw [hdel]
    refine ⟨rfl, rfl, ?_, ?_, ?_⟩
    · show Bucket.lookup id _ = none
      rw [lookup_eq_none_iff]
      intro e he
      simpa using (List.mem_filter.1 he).2
    · intro k hk
      exact lookup_filter_ne id k b hk
    · rw [getPostbacks_eq]
      show (some (List.take limit.toNat (fullListing (some (b.filter _)))), none) = _
      unfold fullListing
      rw [keyedListing_filter]

set_option maxRecDepth 1000000 in
/-- Witness for C6: the three-record store and the identifier `"1001"`. -/
theorem deletePostback_removes_exactly_witness :
    DB.WF scenarioDB ∧ DB.lookup (str "1001") scenarioDB ≠ none ∧
    DB.lookup (str "1001") (deletePostback (str "1001") scenarioDB).2 = none ∧
    DB.lookup (str "1000") (deletePostback (str "1001") scenarioDB).2
      = DB.lookup (str "1000") scenarioDB :=
  ⟨by decide, by decide,
   (deletePostback_removes_exactly.1 scenarioDB (str "1001") 3 (by decide) (by decide)).2.2.1,
   (deletePostback_removes_exactly.1 scenarioDB (str "1001") 3 (by decide) (by decide)).2.2.2.1
      (str "1000") (by decide)⟩

/-- C8 (as amended): for every store and every two records that share an
identifier of at least one and at most `MaxKeySize` bytes, the second with an
encoding of at most `MaxValueSize` bytes, saving the first and then the second
returns no error and leaves the store equal to the one obtained by saving the
second alone: the later write replaces the earlier one, the store holds exactly
one entry for that key, and the number of entries grows by at most one. -/
theorem savePostback_last_write_wins (db : DB) (r1 r2 : Postback) (hwf : DB.WF db)
    (hid : r1.ID = r2.ID) (hsize : Storable r2) :
    savePostback r2 (savePostback r1 db).2 = savePostback r2 db ∧
    (savePostback r2 (savePostback r1 db).2).1 = none ∧
    DB.lookup r2.ID (savePostback r2 (savePostback r1 db).2).2 = some (jsonMarshal r2) ∧
    ((DB.entries (savePostback r2 (savePostback r1 db).2).2).filter
        fun e => decide (e.1 = r2.ID)) = [(r2.ID, jsonMarshal r2)] ∧
    (DB.entries (savePostback r2 (savePostback r1 db).2).2).length
      ≤ (DB.entries db).length + 1 := by
  have hwf' : Bucket.WF (DB.entries db) := by
    cases db with
    | none => exact List.Pairwise.nil
    | some b => exact hwf
  have heq : savePostback r2 (savePostback r1 db).2 = savePostback r2 db := by
    by_cases h1 : Storable r1
    · rw [savePostback_ok r1 db h1, savePostback_ok r2 _ hsize, savePostback_ok r2 db hsize]
      simp only [DB.entries, hid, mapSet_mapSet]
    · have hunch : (savePostback r1 db).2 = db := by
        simp only [savePostback, DB.Update]
        split <;> rename_i h
        · exfalso
          apply h1
          simp only [Bucket.Put] at h
          split_ifs at h with a b c
          refine ⟨?_, by omega, by omega⟩
          intro e; rw [e] at a; exact a rfl
        · rfl
      rw [hunch]
  rw [heq, savePostback_ok r2 db hsize]
  refine ⟨rfl, rfl, ?_, ?_, ?_⟩
  · exact lookup_mapSet _ _ _
  · exact count_key_mapSet _ _ _ hwf'
  · exact length_mapSet_le _ _ _

set_option maxRecDepth 1000000 in
/-- Witness for C8: two captures under `"1001"` on the three-record store. -/
theorem savePostback_last_write_wins_witness :
    DB.WF scenarioDB ∧ (record "1001" "x").ID = (record "1001" "y").ID ∧
    Storable (record "1001" "y") ∧
    savePostback (record "1001" "y") (savePostback (record "1001" "x") scenarioDB).2
      = savePostback (record "1001" "y") scenarioDB :=
  ⟨by decide, by decide, by decide,
   (savePostback_last_write_wins scenarioDB (record "1001" "x") (record "1001" "y")
      (by decide) (by decide) (by decide)).1⟩

/-- Counterexample to C8 as stated: two records sharing a non-empty identifier
of `MaxKeySize + 1` bytes; both saves return `ErrKeyTooLarge` and the store
holds no entry for the key. -/
theorem savePostback_same_id_counterexample :
    longKeyRecord.ID = longKeyRecord.ID ∧ longKeyRecord.ID ≠ [] ∧
    (savePostback longKeyRecord (savePostback longKeyRecord none).2).1
      = some BoltError.ErrKeyTooLarge ∧
    DB.entries (savePostback longKeyRecord (savePostback longKeyRecord none).2).2 = [] := by
  refine ⟨rfl, ?_, ?_, ?_⟩
  · intro h
    have := longKeyRecord_length
    rw [h] at this
    simp at this
  · rw [savePostback_keyTooLarge _ _ longKeyRecord_tooLarge,
      savePostback_keyTooLarge _ _ longKeyRecord_tooLarge]
  · rw [savePostback_keyTooLarge _ _ longKeyRecord_tooLarge,
      savePostback_keyTooLarge _ _ longKeyRecord_tooLarge]
    rfl

/-- C1 (as amended): starting from an empty store, for every list of decodable
records (records whose encoding `json.Unmarshal` accepts) whose identifiers have
at least one and at most `MaxKeySize` bytes, whose encodings have at most
`MaxValueSize` bytes and whose identifiers are strictly increasing as byte
strings, every `savePostback` in that order returns no error, and
`getPostbacks(N)` then returns, without error, exactly the `N` most recently
inserted records, each as `json.Unmarshal` reads it back from its encoding, in
descending identifier order for `1 ≤ N ≤ total`, and all the records in
descending identifier order when `N` exceeds the total. A record whose strings
are valid UTF-8 is read back equal in every field, an empty args map as the nil
map; so records that are read back as themselves are returned as inserted. -/
theorem getPostbacks_after_increasing_inserts (rs : List Postback) (db : DB) (N : Int)
    (hempty : DB.entries db = [])
    (hdec : ∀ p ∈ rs, Decodable p) (hst : ∀ p ∈ rs, Storable p)
    (hinc : rs.Pairwise fun p q => bytesLess p.ID q.ID) :
    (∀ e ∈ saveAllResults rs db, e = none) ∧
    (∃ out, getPostbacks N (saveAll rs db) = (some out, none) ∧
      out.map some = (rs.reverse.take N.toNat).map readBack ∧
      out.length = min N.toNat rs.length ∧
      ((rs.length : Int) < N → out.map some = rs.reverse.map readBack)) ∧
    (rs.reverse.take N.toNat).Pairwise (fun p q => bytesLess q.ID p.ID) ∧
    ((∀ p ∈ rs, ValidStrings p ∧ ArgsWF p) →
      getPostbacks N (saveAll rs db)
        = (some ((rs.reverse.take N.toNat).map emptyArgsAsNil), none)) ∧
    ((∀ p ∈ rs, readBack p = some p) →
      getPostbacks N (saveAll rs db) = (some (rs.reverse.take N.toNat), none)) := by
  obtain ⟨h1, _, h3⟩ := saveAll_eq_putAll rs db hst
  have hput : putAll rs (DB.entries db) = rs.map entryOf := by
    rw [putAll_increasing rs _ hinc (by rw [hempty]; intro e he; simp at he), hempty]
    rfl
  have hget : getPostbacks N (saveAll rs db)
      = (some ((rs.reverse.filterMap readBack).take N.toNat), none) := by
    rw [getPostbacks_eq, fullListing_eq, h1, hput]
    simp only [cursorWalk]
    rw [← List.map_reverse, filterMap_entryOf]
  have hdec' : ∀ p ∈ rs.reverse, Decodable p := fun p hp => hdec p (List.mem_reverse.1 hp)
  have hsome := filterMap_readBack_some rs.reverse hdec'
  have hlen : (rs.reverse.filterMap readBack).length = rs.length := by
    have := congrArg List.length hsome
    simpa using this
  refine ⟨h3, ⟨_, hget, ?_, ?_, ?_⟩, ?_, ?_, ?_⟩
  · rw [List.map_take, hsome, List.map_take]
  · rw [List.length_take, hlen]
  · intro hN
    rw [List.take_of_length_le (by rw [hlen]; omega), hsome]
  · exact List.Pairwise.sublist (List.take_sublist _ _) (List.pairwise_reverse.2 hinc)
  · intro hvalid
    rw [hget, filterMap_readBack_eq rs.reverse emptyArgsAsNil, List.map_take]
    intro p hp
    have := hvalid p (List.mem_reverse.1 hp)
    exact jsonUnmarshal_jsonMarshal p this.1 this.2
  · intro hid
    rw [hget, filterMap_readBack_eq rs.reverse id, List.map_id]
    intro p hp
    exact hid p (List.mem_reverse.1 hp)

set_option maxRecDepth 1000000 in
/-- Witness for C1: three captures saved in the order `"1000"`, `"1001"`,
`"1002"` into a database without the bucket, and `N = 2`: one without a query
string (empty args map), one with a query argument, one whose body is the byte
`0xFF`. -/
theorem getPostbacks_after_increasing_inserts_witness :
    (∀ p ∈ [noQueryRecord "1000" "a",
            { noQueryRecord "1001" "b" with Args := some [(str "k", str "v")] },
            { noQueryRecord "1002" "c" with Body := [0xFF] }], Decodable p ∧ Storable p) ∧
    ∃ out,
      getPostbacks 2 (saveAll [noQueryRecord "1000" "a",
          { noQueryRecord "1001" "b" with Args := some [(str "k", str "v")] },
          { noQueryRecord "1002" "c" with Body := [0xFF] }] none) = (some out, none) ∧
      out.map some = [readBack { noQueryRecord "1002" "c" with Body := [0xFF] },
        readBack { noQueryRecord "1001" "b" with Args := some [(str "k", str "v")] }] ∧
      out = [{ noQueryRecord "1002" "c" with Args := none, Body := [0xEF, 0xBF, 0xBD] },
        { noQueryRecord "1001" "b" with Args := some [(str "k", str "v")] }] := by
  refine ⟨by decide, ?_⟩
  obtain ⟨out, h1, h2, _⟩ := (getPostbacks_after_increasing_inserts
    [noQueryRecord "1000" "a",
      { noQueryRecord "1001" "b" with Args := some [(str "k", str "v")] },
      { noQueryRecord "1002" "c" with Body := [0xFF] }] none 2
    rfl (by decide) (by decide) (by decide)).2.1
  refine ⟨out, h1, h2, ?_⟩
  have hinj : Function.Injective (some : Postback → Option Postback) :=
    fun _ _ h => Option.some.inj h
  apply List.map_injective_iff.2 hinj
  rw [h2]
  decide

theorem filter_key_of_pairwise (l : List (Bytes × Postback))
    (hp : l.Pairwise fun a b => bytesLess b.1 a.1) (x : Bytes × Postback) (hx : x ∈ l) :
    (l.filter fun e => decide (e.1 = x.1)) = [x] := by
  induction l with
  | nil => simp at hx
  | cons y rest ih =>
    have hc := List.pairwise_cons.1 hp
    rcases List.mem_cons.1 hx with rfl | hx
    · rw [List.filter_cons_of_pos (by simp)]
      congr 1
      rw [List.filter_eq_nil_iff]
      intro e he
      simpa using bytesLess_ne (hc.1 e he)
    · have hne : y.1 ≠ x.1 := (bytesLess_ne (hc.1 x hx)).symm
      rw [List.filter_cons_of_neg (by simpa using hne)]
      exact ih hc.2 hx

theorem saveAll_perm_entries (rs : List Postback) (db : DB) (hwf : DB.WF db)
    (hnd : (rs.map fun p => p.ID).Nodup) (hst : ∀ p ∈ rs, Storable p) :
    DB.WF (saveAll rs db) ∧
    List.Perm (DB.entries (saveAll rs db))
      (rs.map entryOf ++ (DB.entries db).filter fun e => decide (e.1 ∉ rs.map fun p => p.ID)) := by
  obtain ⟨h1, h2, _⟩ := saveAll_eq_putAll rs db hst
  obtain ⟨hw, hp⟩ := putAll_perm rs (DB.entries db) (entries_WF db hwf) hnd
  refine ⟨?_, h1 ▸ hp⟩
  cases rs with
  | nil => exact hwf
  | cons p ps =>
    rw [h2 (List.cons_ne_nil _ _)]
    exact hw

/-- C10 (as amended): for every list of decodable records with pairwise
distinct identifiers of at least one and at most `MaxKeySize` bytes and
encodings of at most `MaxValueSize` bytes, and every order `rs'` in which their
`savePostback` calls are applied to a given store, every insert returns no
error, the resulting store is the same whatever the order, and in the
descending listing `getPostbacks` reads (keys strictly descending) there is,
under the identifier of each of the records, exactly one entry, the record as
`json.Unmarshal` reads it back from its encoding: no insert is lost or
duplicated. From an empty store the listing is exactly the records as read
back, one per identifier, in descending key order; when each is read back as
itself, `getPostbacks` returns exactly the records in descending identifier
order. -/
theorem saves_order_independent (rs rs' : List Postback) (db : DB) (hwf : DB.WF db)
    (hperm : List.Perm rs' rs) (hnd : (rs.map fun p => p.ID).Nodup)
    (hdec : ∀ p ∈ rs, Decodable p) (hst : ∀ p ∈ rs, Storable p) :
    (∀ e ∈ saveAllResults rs' db, e = none) ∧
    saveAll rs' db = saveAll rs db ∧
    (keyedListing (saveAll rs' db)).Pairwise (fun a b => bytesLess b.1 a.1) ∧
    (∀ p ∈ rs, ∃ q, readBack p = some q ∧
      ((keyedListing (saveAll rs' db)).filter fun e => decide (e.1 = p.ID)) = [(p.ID, q)]) ∧
    (∀ L : Int, ((DB.entries (saveAll rs' db)).length : Int) ≤ L →
      getPostbacks L (saveAll rs' db) = (some ((keyedListing (saveAll rs' db)).map Prod.snd), none)) ∧
    (DB.entries db = [] →
      List.Perm (keyedListing (saveAll rs' db))
        (rs.filterMap fun p => (readBack p).map fun q => (p.ID, q)) ∧
      (keyedListing (saveAll rs' db)).length = rs.length ∧
      ((∀ p ∈ rs, readBack p = some p) →
        List.Perm (fullListing (saveAll rs' db)) rs ∧
        (fullListing (saveAll rs' db)).Pairwise fun p q => bytesLess q.ID p.ID)) := by
  have hst' : ∀ p ∈ rs', Storable p := fun p hp => hst p (hperm.mem_iff.1 hp)
  have hnd' : (rs'.map fun p => p.ID).Nodup := (hperm.map _).nodup_iff.2 hnd
  obtain ⟨hw, hp⟩ := saveAll_perm_entries rs db hwf hnd hst
  obtain ⟨hw', hp'⟩ := saveAll_perm_entries rs' db hwf hnd' hst'
  have hfilt : ((DB.entries db).filter fun e => decide (e.1 ∉ rs'.map fun p => p.ID))
      = (DB.entries db).filter fun e => decide (e.1 ∉ rs.map fun p => p.ID) := by
    congr 1
    funext e
    exact decide_eq_decide.2 (not_congr (hperm.map fun p => p.ID).mem_iff)
  have hentries : DB.entries (saveAll rs' db) = DB.entries (saveAll rs db) := by
    refine WF_eq_of_perm (entries_WF _ hw') (entries_WF _ hw) (hp'.trans ?_)
    rw [hfilt]
    exact ((hperm.map entryOf).append_right _).trans hp.symm
  have hsame : saveAll rs' db = saveAll rs db := by
    cases hrs : rs with
    | nil =>
      have : rs' = [] := by
        rw [hrs] at hperm; exact List.perm_nil.1 hperm
      rw [this]
    | cons p ps =>
      have hne' : rs' ≠ [] := by
        intro h
        rw [h, hrs] at hperm
        exact absurd hperm.symm (by simp)
      rw [← hrs, (saveAll_eq_putAll rs' db hst').2.1 hne',
        (saveAll_eq_putAll rs db hst).2.1 (by rw [hrs]; exact List.cons_ne_nil _ _)]
      rw [← (saveAll_eq_putAll rs' db hst').1, ← (saveAll_eq_putAll rs db hst).1, hentries]
  have hpw := keyedListing_pairwise (saveAll rs' db) hw'
  refine ⟨(saveAll_eq_putAll rs' db hst').2.2, hsame, hpw, ?_, ?_, ?_⟩
  · intro p hp0
    obtain ⟨q, hq⟩ := (decodable_iff p).1 (hdec p hp0)
    have hmem : entryOf p ∈ DB.entries (saveAll rs' db) := by
      refine hp'.mem_iff.2 (List.mem_append_left _ ?_)
      exact List.mem_map_of_mem _ (hperm.mem_iff.2 hp0)
    exact ⟨q, hq, filter_key_of_pairwise _ hpw (p.ID, q) (mem_keyedListing _ p q hq hmem)⟩
  · intro L hL
    rw [getPostbacks_eq]
    have hlen : (fullListing (saveAll rs' db)).length ≤ L.toNat := by
      rw [fullListing_eq]
      refine (List.length_filterMap_le _ _).trans ?_
      simp only [cursorWalk, List.length_reverse]
      omega
    rw [List.take_of_length_le hlen]
    rfl
  · intro hempty
    have hp2 : List.Perm (DB.entries (saveAll rs' db)) (rs.map entryOf) := by
      have := hp
      rw [hempty] at this
      rw [hentries]
      simpa using this
    have hkl : List.Perm (keyedListing (saveAll rs' db))
        (rs.filterMap fun p => (readBack p).map fun q => (p.ID, q)) := by
      unfold keyedListing cursorWalk
      refine ((List.reverse_perm _).filterMap _).trans ?_
      refine (hp2.filterMap _).trans ?_
      rw [List.filterMap_map]
      exact List.Perm.refl _
    have hlen : (rs.filterMap fun p => (readBack p).map fun q => (p.ID, q)).length
        = rs.length := by
      have hall : ∀ l : List Postback, (∀ p ∈ l, Decodable p) →
          (l.filterMap fun p => (readBack p).map fun q => (p.ID, q)).length = l.length := by
        intro l
        induction l with
        | nil => intro _; rfl
        | cons p ps ih =>
          intro hl
          obtain ⟨q, hq⟩ := (decodable_iff p).1 (hl p (List.mem_cons_self _ _))
          have hq' : (readBack p).map (fun q => (p.ID, q)) = some (p.ID, q) := by rw [hq]; rfl
          rw [@List.filterMap_cons_some _ _ (fun p => (readBack p).map fun q => (p.ID, q))
              p ps (p.ID, q) hq', List.length_cons, List.length_cons,
            ih fun x hx => hl x (List.mem_cons_of_mem _ hx)]
      exact hall rs hdec
    refine ⟨hkl, by rw [hkl.length_eq, hlen], ?_⟩
    intro hid
    have hkeyed : (rs.filterMap fun p => (readBack p).map fun q => (p.ID, q))
        = rs.map fun p => (p.ID, p) := by
      have hall : ∀ l : List Postback, (∀ p ∈ l, readBack p = some p) →
          (l.filterMap fun p => (readBack p).map fun q => (p.ID, q))
            = l.map fun p => (p.ID, p) := by
        intro l
        induction l with
        | nil => intro _; rfl
        | cons p ps ih =>
          intro hl
          have hq' : (readBack p).map (fun q => (p.ID, q)) = some (p.ID, p) := by
            rw [hl p (List.mem_cons_self _ _)]; rfl
          rw [@List.filterMap_cons_some _ _ (fun p => (readBack p).map fun q => (p.ID, q))
              p ps (p.ID, p) hq', List.map_cons,
            ih fun x hx => hl x (List.mem_cons_of_mem _ hx)]
      exact hall rs hid
    rw [hkeyed] at hkl
    refine ⟨?_, ?_⟩
    · unfold fullListing
      refine (hkl.map Prod.snd).trans ?_
      rw [List.map_map]
      have hfun : (Prod.snd ∘ fun p : Postback => (p.ID, p)) = id := rfl
      rw [hfun, List.map_id]
    · unfold fullListing
      rw [List.pairwise_map]
      refine List.Pairwise.imp_of_mem ?_ hpw
      intro a b ha hb hab
      have key : ∀ x ∈ keyedListing (saveAll rs' db), x.1 = x.2.ID := by
        intro x hx
        obtain ⟨q, _, rfl⟩ := List.mem_map.1 (hkl.mem_iff.1 hx)
        rfl
      rw [← key a ha, ← key b hb]
      exact hab

set_option maxRecDepth 1000000 in
/-- Witness for C10: three captures (one without a query string, one with a
query argument, one whose body is the byte `0xFF`) saved in the order `"1002"`,
`"1000"`, `"1001"` into the store that already holds the key `"0999"`. -/
theorem saves_order_independent_witness :
    DB.WF staleDB ∧
    saveAll [{ noQueryRecord "1002" "c" with Body := [0xFF] }, noQueryRecord "1000" "a",
        { noQueryRecord "1001" "b" with Args := some [(str "k", str "v")] }] staleDB
      = saveAll [noQueryRecord "1000" "a",
        { noQueryRecord "1001" "b" with Args := some [(str "k", str "v")] },
        { noQueryRecord "1002" "c" with Body := [0xFF] }] staleDB ∧
    ∃ q, readBack (noQueryRecord "1000" "a") = some q ∧
      ((keyedListing (saveAll [{ noQueryRecord "1002" "c" with Body := [0xFF] },
          noQueryRecord "1000" "a",
          { noQueryRecord "1001" "b" with Args := some [(str "k", str "v")] }] staleDB)).filter
        fun e => decide (e.1 = (noQueryRecord "1000" "a").ID))
        = [((noQueryRecord "1000" "a").ID, q)] :=
  ⟨by decide,
   (saves_order_independent [noQueryRecord "1000" "a",
        { noQueryRecord "1001" "b" with Args := some [(str "k", str "v")] },
        { noQueryRecord "1002" "c" with Body := [0xFF] }]
      [{ noQueryRecord "1002" "c" with Body := [0xFF] }, noQueryRecord "1000" "a",
        { noQueryRecord "1001" "b" with Args := some [(str "k", str "v")] }] staleDB
      (by decide) (by decide) (by decide) (by decide) (by decide)).2.1,
   (saves_order_independent [noQueryRecord "1000" "a",
        { noQueryRecord "1001" "b" with Args := some [(str "k", str "v")] },
        { noQueryRecord "1002" "c" with Body := [0xFF] }]
      [{ noQueryRecord "1002" "c" with Body := [0xFF] }, noQueryRecord "1000" "a",
        { noQueryRecord "1001" "b" with Args := some [(str "k", str "v")] }] staleDB
      (by decide) (by decide) (by decide) (by decide) (by decide)).2.2.2.1
      (noQueryRecord "1000" "a") (by decide)⟩

/-! ## Decimal identifiers -/

theorem formatBits_succ (fuel n : Nat) :
    formatBits (fuel + 1) n
      = if n < 10 then [0x30 + n] else formatBits fuel (n / 10) ++ [0x30 + n % 10] := rfl

theorem formatBits_fuel (n : Nat) : ∀ fuel, n < fuel → formatBits fuel n = formatBits (n + 1) n := by
  induction n using Nat.strong_induction_on with
  | _ n ih =>
    intro fuel hlt
    obtain ⟨f, rfl⟩ : ∃ f, fuel = f + 1 := ⟨fuel - 1, by omega⟩
    rw [formatBits_succ, formatBits_succ]
    split_ifs with h
    · rfl
    · have hd : n / 10 < n := by omega
      rw [ih (n / 10) hd f (by omega), ih (n / 10) hd n hd]

theorem formatBits_rec (n : Nat) :
    formatBits (n + 1) n
      = if n < 10 then [0x30 + n]
        else formatBits (n / 10 + 1) (n / 10) ++ [0x30 + n % 10] := by
  rw [formatBits_succ]
  split_ifs with h
  · rfl
  · rw [formatBits_fuel (n / 10) n (by omega)]

theorem formatBits_length_pos (n : Nat) : 0 < (formatBits (n + 1) n).length := by
  rw [formatBits_rec]
  split_ifs <;> simp

theorem parseDigits_append (a b : Bytes) (acc : Nat) :
    parseDigits (a ++ b) acc = (parseDigits a acc).bind (parseDigits b) := by
  induction a generalizing acc with
  | nil => rfl
  | cons c rest ih =>
    simp only [List.cons_append, parseDigits]
    split_ifs
    · exact ih _
    · rfl

theorem parseDigits_formatBits (n : Nat) : parseDigits (formatBits (n + 1) n) 0 = some n := by
  induction n using Nat.strong_induction_on with
  | _ n ih =>
    rw [formatBits_rec]
    split_ifs with h
    · have hd : isDigit (0x30 + n) = true := by
        simp only [isDigit, Bool.and_eq_true, decide_eq_true_eq]; omega
      simp only [parseDigits, hd, if_true]
      congr 1
      omega
    · rw [parseDigits_append, ih (n / 10) (by omega)]
      have hd : isDigit (0x30 + n % 10) = true := by
        simp only [isDigit, Bool.and_eq_true, decide_eq_true_eq]; omega
      simp only [Option.some_bind, parseDigits, hd, if_true]
      congr 1
      omega

theorem formatBits_injective {n m : Nat}
    (h : formatBits (n + 1) n = formatBits (m + 1) m) : n = m := by
  have h1 := parseDigits_formatBits n
  rw [h, parseDigits_formatBits m] at h1
  exact (Option.some.inj h1).symm

theorem bytesLess_snoc (a b : Bytes) (x y : Nat) (hlen : a.length = b.length) :
    bytesLess (a ++ [x]) (b ++ [y]) ↔ bytesLess a b ∨ (a = b ∧ x < y) := by
  unfold bytesLess
  induction a generalizing b with
  | nil =>
    cases b with
    | nil =>
      simp only [List.nil_append, bytesCompare, true_and]
      split_ifs <;> simp <;> omega
    | cons c cs => simp at hlen
  | cons c cs ih =>
    cases b with
    | nil => simp at hlen
    | cons d ds =>
      have hl : cs.length = ds.length := by simpa using hlen
      simp only [List.cons_append, bytesCompare]
      split_ifs with h1 h2
      · simp
      · simp; omega
      · have hcd : c = d := by omega
        subst hcd
        have := ih ds hl
        simp only [List.append_eq] at this ⊢
        rw [this]
        simp

theorem formatBits_order (n : Nat) : ∀ m,
    (formatBits (n + 1) n).length = (formatBits (m + 1) m).length →
    (n < m ↔ bytesLess (formatBits (n + 1) n) (formatBits (m + 1) m)) := by
  induction n using Nat.strong_induction_on with
  | _ n ih =>
    intro m hlen
    rw [formatBits_rec n, formatBits_rec m] at hlen ⊢
    have hn := formatBits_length_pos (n / 10)
    have hm := formatBits_length_pos (m / 10)
    split_ifs at hlen ⊢ with h1 h2 h2
    · simp only [bytesLess, bytesCompare]
      split_ifs <;> simp <;> omega
    · simp only [List.length_append, List.length_singleton] at hlen; omega
    · simp only [List.length_append, List.length_singleton] at hlen; omega
    · have hl : (formatBits (n / 10 + 1) (n / 10)).length
          = (formatBits (m / 10 + 1) (m / 10)).length := by simpa using hlen
      rw [bytesLess_snoc _ _ _ _ hl, ← ih (n / 10) (by omega) (m / 10) hl]
      constructor
      · intro hlt
        by_cases hq : n / 10 < m / 10
        · exact Or.inl hq
        · have heq : n / 10 = m / 10 := by omega
          exact Or.inr ⟨by rw [heq], by omega⟩
      · rintro (hq | ⟨he, hr⟩)
        · omega
        · have := formatBits_injective he
          omega

/-- C9: for every two non-negative nanosecond timestamps whose decimal
identifiers (`strconv.FormatInt(t, 10)`) have the same number of digits,
`t1 < t2` holds if and only if the identifier of `t1` is strictly less than the
identifier of `t2` as a byte string. -/
theorem identifier_order (t1 t2 : Int) (h1 : 0 ≤ t1) (h2 : 0 ≤ t2)
    (hlen : (identifier t1).length = (identifier t2).length) :
    t1 < t2 ↔ bytesLess (identifier t1) (identifier t2) := by
  have e1 : ¬ t1 < 0 := by omega
  have e2 : ¬ t2 < 0 := by omega
  simp only [identifier, formatInt, if_neg e1, if_neg e2] at hlen ⊢
  rw [← formatBits_order _ _ hlen]
  omega

/-- Witness for C9: two 19-digit timestamps. -/
theorem identifier_order_witness :
    (1700000000000000000 < (1700000000000000001 : Int) ↔
      bytesLess (identifier 1700000000000000000) (identifier 1700000000000000001)) :=
  identifier_order 1700000000000000000 1700000000000000001 (by decide) (by decide) (by decide)

/-! ## The limit of `getHandler` -/

theorem formatBits_head (n : Nat) :
    ∃ d ds, formatBits (n + 1) n = d :: ds ∧ isDigit d = true := by
  induction n using Nat.strong_induction_on with
  | _ n ih =>
    rw [formatBits_rec]
    split_ifs with h
    · refine ⟨0x30 + n, [], rfl, ?_⟩
      simp only [isDigit, Bool.and_eq_true, decide_eq_true_eq]; omega
    · obtain ⟨d, ds, he, hd⟩ := ih (n / 10) (by omega)
      exact ⟨d, ds ++ [0x30 + n % 10], by rw [he]; rfl, hd⟩

theorem atoi_formatInt (n : Int) (hlo : -2 ^ 63 ≤ n) (hhi : n < 2 ^ 63) :
    atoi (formatInt n) = some n := by
  obtain ⟨d, ds, he, hd⟩ := formatBits_head n.natAbs
  have hp := parseDigits_formatBits n.natAbs
  have hd1 : d ≠ 0x2D := by
    intro h; rw [h] at hd; simp [isDigit] at hd
  have hd2 : d ≠ 0x2B := by
    intro h; rw [h] at hd; simp [isDigit] at hd
  unfold formatInt
  split_ifs with hneg
  · rw [he] at hp ⊢
    simp only [atoi, Bool.or_eq_true, decide_eq_true_eq, true_or, if_true, hp]
    have h3 : ¬ (2 ^ 63 < n.natAbs) := by omega
    simp only [if_neg h3]
    congr 1
    omega
  · rw [he] at hp ⊢
    simp only [atoi, Bool.or_eq_true, decide_eq_true_eq, hd1, hd2, or_self, if_false, hp]
    have h3 : ¬ (2 ^ 63 ≤ n.natAbs) := by omega
    simp only [if_neg h3]
    congr 1
    omega

theorem parseDigits_none (l : Bytes) (acc : Nat) (h : ∃ c ∈ l, isDigit c = false) :
    parseDigits l acc = none := by
  induction l generalizing acc with
  | nil => simp at h
  | cons c rest ih =>
    simp only [parseDigits]
    cases hc : isDigit c with
    | false => simp
    | true =>
      simp only [if_true]
      apply ih
      obtain ⟨x, hx, hxd⟩ := h
      rcases List.mem_cons.1 hx with rfl | hx
      · rw [hc] at hxd; cases hxd
      · exact ⟨x, hx, hxd⟩

theorem atoi_nonnumeric (s : Bytes) (h : ∃ c ∈ s.tail, isDigit c = false) : atoi s = none := by
  cases s with
  | nil => rfl
  | cons c rest =>
    simp only [List.tail_cons] at h
    by_cases hs : (decide (c = 0x2D) || decide (c = 0x2B)) = true
    · cases rest with
      | nil => simp only [atoi, hs, if_true]
      | cons d ds => simp only [atoi, hs, if_true, parseDigits_none (d :: ds) 0 h]
    · have : parseDigits (c :: rest) 0 = none := by
        simp only [parseDigits]
        split_ifs
        · exact parseDigits_none rest _ h
        · rfl
      simp only [atoi, hs, if_false, this, Bool.false_eq_true]

/-- C2 (as amended): in `getHandler`, when the `limit` query parameter is
missing, empty, or rejected by `strconv.Atoi` (not a decimal integer, or out of
the range of `int`), the limit passed to `getPostbacks` is the default 10; when
it parses to an integer, that integer is passed, whether positive, zero or
negative. -/
theorem getHandlerLimit_spec :
    getHandlerLimit none = 10 ∧
    getHandlerLimit (some []) = 10 ∧
    (∀ s, atoi s = none → getHandlerLimit (some s) = 10) ∧
    (∀ s, (∃ c ∈ s.tail, isDigit c = false) → getHandlerLimit (some s) = 10) ∧
    (∀ s n, atoi s = some n → getHandlerLimit (some s) = n) ∧
    (∀ n : Int, -2 ^ 63 ≤ n → n < 2 ^ 63 → getHandlerLimit (some (formatInt n)) = n) ∧
    (∀ (param : Option Bytes) (db : DB),
      getHandler param db = (200, ((getPostbacks (getHandlerLimit param) db).1).getD [])) := by
  refine ⟨rfl, rfl, ?_, ?_, ?_, ?_, ?_⟩
  · intro s h
    simp only [getHandlerLimit, queryGet, Option.getD, h, defaultLimit]
  · intro s h
    simp only [getHandlerLimit, queryGet, Option.getD, atoi_nonnumeric s h, defaultLimit]
  · intro s n h
    simp only [getHandlerLimit, queryGet, Option.getD, h]
  · intro n hlo hhi
    simp only [getHandlerLimit, queryGet, Option.getD, atoi_formatInt n hlo hhi]
  · intro param db
    simp only [getHandler, getPostbacks_eq]

/-- Witness for C2 as amended: `limit=abc` gives 10, `limit=25` gives 25 and
`limit=-5` gives -5. -/
theorem getHandlerLimit_spec_witness :
    getHandlerLimit (some (str "abc")) = 10 ∧
    getHandlerLimit (some (str "25")) = 25 ∧
    getHandlerLimit (some (formatInt (-5))) = -5 :=
  ⟨getHandlerLimit_spec.2.2.1 (str "abc") (by decide),
   getHandlerLimit_spec.2.2.2.2.1 (str "25") 25 (by decide),
   getHandlerLimit_spec.2.2.2.2.2.1 (-5) (by decide) (by decide)⟩

set_option maxRecDepth 1000000 in
/-- Counterexample to C2 as stated: the values `0` and `-5` parse to
non-positive integers, and the limit passed to `getPostbacks` is that integer,
not the default 10; the listing is then empty. -/
theorem getHandlerLimit_nonpositive_counterexample :
    atoi (str "0") = some 0 ∧ getHandlerLimit (some (str "0")) = 0 ∧
    atoi (str "-5") = some (-5) ∧ getHandlerLimit (some (str "-5")) = -5 ∧
    getHandlerLimit (some (str "-5")) ≠ 10 ∧
    getHandler (some (str "0")) scenarioDB = (200, []) := by
  decide

/-- C4 (as amended): for every `Postback` whose strings (method, url, id, body,
and the keys and values of args) are valid UTF-8, decoding with
`json.Unmarshal` the bytes produced by `json.Marshal` succeeds and yields a
record equal to the original in every field, where an empty args mapping and an
empty body, which are omitted from the encoding, decode to the empty value (the
nil map, the empty string). `ArgsWF` is the representation of a Go map used
here, its entries listed in ascending key order. -/
theorem json_roundtrip (p : Postback) (hv : ValidStrings p) (hw : ArgsWF p) :
    ∃ q, jsonUnmarshal (jsonMarshal p) = some q ∧
      q.Method = p.Method ∧ q.URL = p.URL ∧ q.ID = p.ID ∧ q.Body = p.Body ∧
      q.Args.getD [] = p.Args.getD [] ∧
      (p.Args.getD [] ≠ [] → q.Args = p.Args) ∧
      (p.Args.getD [] = [] → q.Args = none) := by
  refine ⟨emptyArgsAsNil p, jsonUnmarshal_jsonMarshal p hv hw, rfl, rfl, rfl, rfl, ?_, ?_, ?_⟩
  · obtain ⟨m, u, i, a, b⟩ := p
    rcases a with _ | _ | ⟨kv, kvs⟩ <;> rfl
  · intro hne
    obtain ⟨m, u, i, a, b⟩ := p
    rcases a with _ | _ | ⟨kv, kvs⟩
    · rfl
    · exact absurd rfl hne
    · rfl
  · intro he
    obtain ⟨m, u, i, a, b⟩ := p
    rcases a with _ | _ | ⟨kv, kvs⟩
    · rfl
    · rfl
    · simp at he

set_option maxRecDepth 1000000 in
/-- Witness for C4 as amended: a record with query arguments, a body with
characters that are escaped, and non-ASCII text. -/
theorem json_roundtrip_witness :
    ∃ q, jsonUnmarshal (jsonMarshal
        { Method := str "POST", URL := str "/hook?a=1&b=<2>", ID := str "1000",
          Args := some [(str "a", str "1"), (str "b", str "<2>")],
          Body := str "say \"hi\"\n" ++ [0xC3, 0xA9, 0xE2, 0x80, 0xA8] }) = some q ∧
      q.Body = str "say \"hi\"\n" ++ [0xC3, 0xA9, 0xE2, 0x80, 0xA8] ∧
      q.Args = some [(str "a", str "1"), (str "b", str "<2>")] := by
  obtain ⟨q, h1, _, _, _, h5, _, h7, _⟩ := json_roundtrip
    { Method := str "POST", URL := str "/hook?a=1&b=<2>", ID := str "1000",
      Args := some [(str "a", str "1"), (str "b", str "<2>")],
      Body := str "say \"hi\"\n" ++ [0xC3, 0xA9, 0xE2, 0x80, 0xA8] } (by decide) (by decide)
  exact ⟨q, h1, h5, h7 (by decide)⟩

set_option maxRecDepth 1000000 in
/-- Counterexample to C4 as stated: a record whose body is the byte `0xFF`;
`json.Marshal` writes the body as U+FFFD and `json.Unmarshal` yields the body
`EF BF BD`, not the original. -/
theorem json_roundtrip_counterexample :
    jsonMarshal rawBodyRecord
      = str "\x7b\"method\":\"POST\",\"url\":\"/hook\",\"id\":\"1000\",\"body\":\""
          ++ [0xEF, 0xBF, 0xBD] ++ str "\"\x7d" ∧
    jsonUnmarshal (jsonMarshal rawBodyRecord)
      = some { rawBodyRecord with Body := [0xEF, 0xBF, 0xBD] } ∧
    jsonUnmarshal (jsonMarshal rawBodyRecord) ≠ some rawBodyRecord := by
  decide

/-- Every record with valid UTF-8 strings is decodable, and is read back equal
in every field, an empty `Args` map as the nil map. -/
theorem readBack_of_valid (p : Postback) (hv : ValidStrings p) (hw : ArgsWF p) :
    readBack p = some (emptyArgsAsNil p) ∧ Decodable p := by
  have h : readBack p = some (emptyArgsAsNil p) := jsonUnmarshal_jsonMarshal p hv hw
  exact ⟨h, (decodable_iff p).2 ⟨_, h⟩⟩

/-! ## A record too long for `Put` -/

theorem validUTF8Aux_ascii (fuel : Nat) : ∀ s : Bytes, s.length ≤ fuel →
    (∀ b ∈ s, b < 0x80) → validUTF8Aux fuel s = true := by
  induction fuel with
  | zero =>
    intro s hlen _
    have : s = [] := List.length_eq_zero.1 (by omega)
    subst this
    rfl
  | succ fuel ih =>
    intro s hlen hs
    cases s with
    | nil => rfl
    | cons b rest =>
      have hb : b < 0x80 := hs b (List.mem_cons_self _ _)
      have hne : ¬ b = RuneError := by unfold RuneError; omega
      simp only [validUTF8Aux, decodeRune_ascii b hb rest]
      simp only [hne, decide_False, Bool.false_and, Bool.false_eq_true, if_false,
        Nat.sub_self, List.drop_zero]
      exact ih rest (by simpa using hlen) fun x hx => hs x (List.mem_cons_of_mem _ hx)

theorem longKeyRecord_decodable : Decodable longKeyRecord := by
  have hid : validUTF8 longKeyRecord.ID = true := by
    refine validUTF8Aux_ascii _ _ (le_refl _) ?_
    intro b hb
    have : b = 0x31 := List.eq_of_mem_replicate hb
    omega
  have hv : ValidStrings longKeyRecord :=
    ⟨by decide, by decide, hid, by decide, by decide⟩
  have hw : ArgsWF longKeyRecord := by decide
  exact (readBack_of_valid longKeyRecord hv hw).2

theorem longKeyRecord_ne_nil : longKeyRecord.ID ≠ [] := by
  intro h
  have := longKeyRecord_length
  rw [h] at this
  simp at this

set_option maxRecDepth 1000000 in
/-- Counterexample to C1 as stated, at three one-record lists of decodable
records with a non-empty identifier. (a) An identifier of `MaxKeySize + 1`
bytes: `savePostback` returns `ErrKeyTooLarge` and `getPostbacks(1)` returns the
empty slice. (b) A body that is the byte `0xFF`: `getPostbacks(1)` returns the
record with the body `EF BF BD`, not the inserted record. (c) The empty args map
of a request without query string: `getPostbacks(1)` returns the record with
the nil map. -/
theorem getPostbacks_after_inserts_counterexample :
    (Decodable longKeyRecord ∧ longKeyRecord.ID ≠ [] ∧
      [longKeyRecord].Pairwise (fun p q => bytesLess p.ID q.ID) ∧
      (savePostback longKeyRecord none).1 = some BoltError.ErrKeyTooLarge ∧
      getPostbacks 1 (saveAll [longKeyRecord] none) = (some [], none) ∧
      getPostbacks 1 (saveAll [longKeyRecord] none) ≠ (some [longKeyRecord], none)) ∧
    (Decodable rawBodyRecord ∧ Storable rawBodyRecord ∧
      saveAllResults [rawBodyRecord] none = [none] ∧
      getPostbacks 1 (saveAll [rawBodyRecord] none)
        = (some [{ rawBodyRecord with Body := [0xEF, 0xBF, 0xBD] }], none) ∧
      getPostbacks 1 (saveAll [rawBodyRecord] none) ≠ (some [rawBodyRecord], none)) ∧
    (Decodable (noQueryRecord "1000" "a") ∧ Storable (noQueryRecord "1000" "a") ∧
      saveAllResults [noQueryRecord "1000" "a"] none = [none] ∧
      getPostbacks 1 (saveAll [noQueryRecord "1000" "a"] none)
        = (some [{ noQueryRecord "1000" "a" with Args := none }], none) ∧
      getPostbacks 1 (saveAll [noQueryRecord "1000" "a"] none)
        ≠ (some [noQueryRecord "1000" "a"], none)) := by
  have hsave : saveAll [longKeyRecord] none = none := by
    rw [saveAll_cons, savePostback_keyTooLarge _ _ longKeyRecord_tooLarge]
    rfl
  refine ⟨⟨longKeyRecord_decodable, longKeyRecord_ne_nil, List.pairwise_singleton _ _,
    ?_, ?_, ?_⟩, by decide, by decide⟩
  · rw [savePostback_keyTooLarge _ _ longKeyRecord_tooLarge]
  · rw [hsave]; rfl
  · rw [hsave]
    intro h
    have h1 : (getPostbacks 1 none).1 = some [] := rfl
    rw [h] at h1
    simp at h1

set_option maxRecDepth 1000000 in
/-- Counterexample to C10 as stated, at three inputs of decodable records with
pairwise distinct non-empty identifiers. (a) The records `"1000"` and one with
an identifier of `MaxKeySize + 1` bytes: in both orders the insert of the second
returns `ErrKeyTooLarge` and is lost. (b) The record `"1000"` inserted into a
store whose key `"0999"` holds the same encoding: `getPostbacks` returns the
record twice. (c) Two records with the identifiers `FF` and `EF BF BD` inserted
into an empty store, in either order: both inserts succeed and `getPostbacks`
returns the second record twice and the first not at all. -/
theorem saves_order_counterexample :
    (Decodable (record "1000" "a") ∧ Decodable longKeyRecord ∧
      (record "1000" "a").ID ≠ [] ∧ longKeyRecord.ID ≠ [] ∧
      (record "1000" "a").ID ≠ longKeyRecord.ID ∧
      saveAllResults [record "1000" "a", longKeyRecord] none
        = [none, some BoltError.ErrKeyTooLarge] ∧
      saveAllResults [longKeyRecord, record "1000" "a"] none
        = [some BoltError.ErrKeyTooLarge, none] ∧
      getPostbacks 2 (saveAll [record "1000" "a", longKeyRecord] none)
        = (some [record "1000" "a"], none) ∧
      getPostbacks 2 (saveAll [longKeyRecord, record "1000" "a"] none)
        = (some [record "1000" "a"], none)) ∧
    (DB.WF staleDB ∧ Decodable (record "1000" "a") ∧ Storable (record "1000" "a") ∧
      readBack (record "1000" "a") = some (record "1000" "a") ∧
      saveAllResults [record "1000" "a"] staleDB = [none] ∧
      getPostbacks 5 (saveAll [record "1000" "a"] staleDB)
        = (some [record "1000" "a", record "1000" "a"], none)) ∧
    (Decodable rawIdRecord ∧ Decodable replacementIdRecord ∧
      Storable rawIdRecord ∧ Storable replacementIdRecord ∧
      rawIdRecord.ID ≠ replacementIdRecord.ID ∧
      saveAllResults [rawIdRecord, replacementIdRecord] none = [none, none] ∧
      saveAllResults [replacementIdRecord, rawIdRecord] none = [none, none] ∧
      getPostbacks 2 (saveAll [rawIdRecord, replacementIdRecord] none)
        = (some [replacementIdRecord, replacementIdRecord], none) ∧
      getPostbacks 2 (saveAll [replacementIdRecord, rawIdRecord] none)
        = (some [replacementIdRecord, replacementIdRecord], none)) := by
  have hne : (record "1000" "a").ID ≠ longKeyRecord.ID := by
    intro h
    have h1 := longKeyRecord_length
    rw [← h] at h1
    revert h1
    decide
  have hk := fun db => savePostback_keyTooLarge longKeyRecord db longKeyRecord_tooLarge
  refine ⟨⟨by decide, longKeyRecord_decodable, by decide, longKeyRecord_ne_nil, hne,
    ?_, ?_, ?_, ?_⟩, by decide, by decide⟩
  · simp only [saveAllResults, hk]
    have : (savePostback (record "1000" "a") none).1 = none := by decide
    rw [this]
  · simp only [saveAllResults, hk]
    have : (savePostback (record "1000" "a") none).1 = none := by decide
    rw [this]
  · rw [saveAll_cons, saveAll_cons, hk]
    decide
  · rw [saveAll_cons, hk]
    decide

end PostbackCatcher
